import Mathlib

/-!
Verification of the ArbitrageBetTracker core: a shallow embedding of the
match-reconciliation and arbitrage-detection engine (arbitrage.py,
bet_calculator.py, api_parsers.py) together with proofs of the spec's
claimed properties.

Modelling conventions:
* Python floats are modelled as exact rationals (`ℚ`): the spec's claims are
  stated "exact over exact arithmetic, up to floating-point tolerance".
* Python strings are modelled as lists of characters (`List Char`),
  i.e. sequences of code points, matching Python's `str` semantics.
* Python dicts are modelled as association lists in insertion order
  (Python dicts preserve insertion order).
-/

/-! ## Arbitrage Calculator (`arbitrage.py`, `calculate_arbitrage`) -/

/-- The result dictionary of `calculate_arbitrage` (arbitrage.py lines 26-60).
The `investment` key is present only in the successful branch, hence `Option`. -/
structure ArbResult where
  is_arbitrage : Bool
  profit_percentage : ℚ
  individual_stakes : List ℚ
  expected_return : ℚ
  investment : Option ℚ
deriving Repr, DecidableEq

/-- The early-return dictionary of `calculate_arbitrage` for invalid input or
no arbitrage (arbitrage.py lines 26-31 and 38-43). -/
def zeroArbResult : ArbResult :=
  { is_arbitrage := false
    profit_percentage := 0
    individual_stakes := []
    expected_return := 0
    investment := none }

/-- `sum(1/odd for odd in odds_list)` (arbitrage.py line 34). -/
def sum_reciprocals (odds_list : List ℚ) : ℚ :=
  (odds_list.map (fun odd => 1 / odd)).sum

/-- Embedding of `calculate_arbitrage(odds_list, stake=100)`
(arbitrage.py lines 14-60): guard against an empty list or any odd `<= 1.0`;
guard against `sum_reciprocals >= 1`; otherwise return the arbitrage result
with `individual_stakes[i] = stake * (1/odds_i) / sum_reciprocals` and
`expected_return = individual_stakes[0] * odds_list[0]`. -/
def calculate_arbitrage (odds_list : List ℚ) (stake : ℚ := 100) : ArbResult :=
  if odds_list = [] ∨ ∃ odd ∈ odds_list, odd ≤ 1 then zeroArbResult
  else
    let s := sum_reciprocals odds_list
    if 1 ≤ s then zeroArbResult
    else
      let individual_stakes := odds_list.map (fun odd => stake * (1 / odd) / s)
      { is_arbitrage := true
        profit_percentage := (1 - s) * 100
        individual_stakes := individual_stakes
        expected_return := individual_stakes.headD 0 * odds_list.headD 0
        investment := some stake }

/-! ## Independent stake calculator (`bet_calculator.py`, `calculate_optimal_stakes`) -/

/-- The result dictionary of `calculate_optimal_stakes`
(bet_calculator.py lines 34-43). -/
structure OptimalStakesResult where
  is_arbitrage : Bool
  profit_percentage : ℚ
  individual_stakes : List ℚ
  sum_stakes : ℚ
  expected_return : ℚ
  expected_profit : ℚ
  roi : ℚ
  investment : ℚ
deriving Repr, DecidableEq

/-- Embedding of `calculate_optimal_stakes(odds_list, total_investment=100)`
(bet_calculator.py lines 3-43). Unlike `calculate_arbitrage` it has no input
guards; `is_arbitrage` is `total_implied_prob < 1`, profit is zeroed when not
an arbitrage, and `expected_return` is guarded by `total_implied_prob > 0`. -/
def calculate_optimal_stakes (odds_list : List ℚ) (total_investment : ℚ := 100) :
    OptimalStakesResult :=
  let implied_probs := odds_list.map (fun odds => 1 / odds)
  let total_implied_prob := implied_probs.sum
  let is_arbitrage : Bool := decide (total_implied_prob < 1)
  let profit_percentage := if is_arbitrage then (1 - total_implied_prob) * 100 else 0
  let individual_stakes :=
    odds_list.map (fun odds => total_investment * (1 / odds) / total_implied_prob)
  let expected_return :=
    if 0 < total_implied_prob then total_investment / total_implied_prob else 0
  let expected_profit := expected_return - total_investment
  let roi := if 0 < total_investment then expected_profit / total_investment * 100 else 0
  { is_arbitrage := is_arbitrage
    profit_percentage := profit_percentage
    individual_stakes := individual_stakes
    sum_stakes := individual_stakes.sum
    expected_return := expected_return
    expected_profit := expected_profit
    roi := roi
    investment := total_investment }

/-! ## Helper lemmas for the arithmetic claims -/

/-- With every odd strictly above 1, the sum of reciprocals of a non-empty
odds list is strictly positive. -/
theorem sum_reciprocals_pos (odds_list : List ℚ) (hne : odds_list ≠ [])
    (hgt : ∀ odd ∈ odds_list, 1 < odd) : 0 < sum_reciprocals odds_list := by
  apply List.sum_pos
  · intro x hx
    rcases List.mem_map.1 hx with ⟨o, ho, rfl⟩
    have h1 : (0:ℚ) < o := lt_trans one_pos (hgt o ho)
    positivity
  · simpa using hne

/-- The two input guards of `calculate_arbitrage` are not taken when the odds
list is non-empty with every odd strictly above 1. -/
theorem calculate_arbitrage_guard_false (odds_list : List ℚ)
    (hne : odds_list ≠ []) (hgt : ∀ odd ∈ odds_list, 1 < odd) :
    ¬ (odds_list = [] ∨ ∃ odd ∈ odds_list, odd ≤ 1) := by
  rintro (h | ⟨o, ho, hle⟩)
  · exact hne h
  · exact absurd (hgt o ho) (not_lt.2 hle)

/-- On valid arbitrage input, `calculate_arbitrage` takes its success branch:
the full record it returns. -/
theorem calculate_arbitrage_eq_of_valid (odds_list : List ℚ) (stake : ℚ)
    (hne : odds_list ≠ []) (hgt : ∀ odd ∈ odds_list, 1 < odd)
    (harb : sum_reciprocals odds_list < 1) :
    calculate_arbitrage odds_list stake =
      { is_arbitrage := true
        profit_percentage := (1 - sum_reciprocals odds_list) * 100
        individual_stakes :=
          odds_list.map (fun odd => stake * (1 / odd) / sum_reciprocals odds_list)
        expected_return :=
          (odds_list.map (fun odd => stake * (1 / odd) / sum_reciprocals odds_list)).headD 0
            * odds_list.headD 0
        investment := some stake } := by
  rw [calculate_arbitrage, if_neg (calculate_arbitrage_guard_false odds_list hne hgt),
    if_neg (not_le.2 harb)]

/-! ## C1: arbitrage threshold correctness -/

/-- C1: for every non-empty odds list in which every odds value is strictly
greater than 1, the `is_arbitrage` field of `calculate_arbitrage` is true if
and only if the sum of reciprocals of the odds is strictly below 1. -/
theorem C1_is_arbitrage_iff_sum_reciprocals_lt_one (odds_list : List ℚ) (stake : ℚ)
    (hne : odds_list ≠ []) (hgt : ∀ odd ∈ odds_list, 1 < odd) :
    (calculate_arbitrage odds_list stake).is_arbitrage = true ↔
      sum_reciprocals odds_list < 1 := by
  rw [calculate_arbitrage, if_neg (calculate_arbitrage_guard_false odds_list hne hgt)]
  by_cases h : 1 ≤ sum_reciprocals odds_list
  · rw [if_pos h]
    simp only [zeroArbResult, Bool.false_eq_true, false_iff, not_lt]
    exact h
  · rw [if_neg h]
    simpa using not_le.1 h

/-- Witness for C1 at the concrete input odds = [3, 4, 5], stake = 100. -/
theorem C1_witness :
    ([(3:ℚ), 4, 5] ≠ [] ∧ ∀ odd ∈ [(3:ℚ), 4, 5], 1 < odd) ∧
      ((calculate_arbitrage [3, 4, 5] 100).is_arbitrage = true ↔
        sum_reciprocals [3, 4, 5] < 1) := by
  refine ⟨⟨by simp, by intro odd h; fin_cases h <;> norm_num⟩, ?_⟩
  exact C1_is_arbitrage_iff_sum_reciprocals_lt_one [3, 4, 5] 100 (by simp)
    (by intro odd h; fin_cases h <;> norm_num)

/-- Helper: on valid arbitrage input the expected return of
`calculate_arbitrage` equals `stake / sum_reciprocals`. -/
theorem calculate_arbitrage_expected_return (odds_list : List ℚ) (stake : ℚ)
    (hne : odds_list ≠ []) (hgt : ∀ odd ∈ odds_list, 1 < odd)
    (harb : sum_reciprocals odds_list < 1) :
    (calculate_arbitrage odds_list stake).expected_return =
      stake / sum_reciprocals odds_list := by
  rw [calculate_arbitrage_eq_of_valid odds_list stake hne hgt harb]
  cases odds_list with
  | nil => exact absurd rfl hne
  | cons o t =>
    have ho : (1:ℚ) < o := hgt o (List.mem_cons_self o t)
    have ho0 : o ≠ 0 := ne_of_gt (lt_trans one_pos ho)
    have hs0 : sum_reciprocals (o :: t) ≠ 0 :=
      ne_of_gt (sum_reciprocals_pos (o :: t) hne hgt)
    simp only [List.map_cons, List.headD_cons]
    field_simp
    ring

/-! ## C2: stake allocation, equal payout, stake conservation -/

/-- C2: on valid arbitrage input (non-empty odds, each above 1, sum of
reciprocals below 1, positive stake), `calculate_arbitrage` allocates
`stake * (1/odds_i) / sum_reciprocals` to slot `i`; each slot's payout
`stake_i * odds_i` equals `stake / sum_reciprocals`, which is the returned
expected return; and the stakes add up to the total stake. -/
theorem C2_stake_allocation (odds_list : List ℚ) (stake : ℚ)
    (hne : odds_list ≠ []) (hgt : ∀ odd ∈ odds_list, 1 < odd)
    (harb : sum_reciprocals odds_list < 1) (hstake : 0 < stake) :
    (calculate_arbitrage odds_list stake).individual_stakes =
      odds_list.map (fun odd => stake * (1 / odd) / sum_reciprocals odds_list) ∧
    (∀ i, i < odds_list.length →
      (calculate_arbitrage odds_list stake).individual_stakes.getD i 0 *
        odds_list.getD i 0 = stake / sum_reciprocals odds_list) ∧
    (calculate_arbitrage odds_list stake).expected_return =
      stake / sum_reciprocals odds_list ∧
    (calculate_arbitrage odds_list stake).individual_stakes.sum = stake := by
  have hs0 : sum_reciprocals odds_list ≠ 0 :=
    ne_of_gt (sum_reciprocals_pos odds_list hne hgt)
  refine ⟨?_, ?_, calculate_arbitrage_expected_return odds_list stake hne hgt harb, ?_⟩
  · rw [calculate_arbitrage_eq_of_valid odds_list stake hne hgt harb]
  · intro i hi
    rw [calculate_arbitrage_eq_of_valid odds_list stake hne hgt harb]
    simp only [List.getD_eq_getElem?_getD, List.getElem?_map]
    rw [List.getElem?_eq_getElem hi]
    have ho : (1:ℚ) < odds_list[i] := hgt _ (List.getElem_mem hi)
    have ho0 : odds_list[i] ≠ 0 := ne_of_gt (lt_trans one_pos ho)
    simp only [Option.map_some, Option.getD_some]
    field_simp
    ring
  · rw [calculate_arbitrage_eq_of_valid odds_list stake hne hgt harb]
    have hmap : (fun odd => stake * (1 / odd) / sum_reciprocals odds_list) =
        fun odd => (stake / sum_reciprocals odds_list) * (1 / odd) := by
      funext odd; ring
    simp only [hmap, List.sum_map_mul_left]
    rw [show (odds_list.map (fun odd => 1 / odd)).sum = sum_reciprocals odds_list from rfl]
    field_simp

/-- Witness for C2 at the concrete input odds = [3, 4, 5], stake = 100. -/
theorem C2_witness :
    ([(3:ℚ), 4, 5] ≠ [] ∧ (∀ odd ∈ [(3:ℚ), 4, 5], 1 < odd) ∧
      sum_reciprocals [3, 4, 5] < 1 ∧ (0:ℚ) < 100) ∧
    ((calculate_arbitrage [3, 4, 5] 100).individual_stakes =
      [(3:ℚ), 4, 5].map (fun odd => 100 * (1 / odd) / sum_reciprocals [3, 4, 5]) ∧
    (∀ i, i < [(3:ℚ), 4, 5].length →
      (calculate_arbitrage [3, 4, 5] 100).individual_stakes.getD i 0 *
        [(3:ℚ), 4, 5].getD i 0 = 100 / sum_reciprocals [3, 4, 5]) ∧
    (calculate_arbitrage [3, 4, 5] 100).expected_return =
      100 / sum_reciprocals [3, 4, 5] ∧
    (calculate_arbitrage [3, 4, 5] 100).individual_stakes.sum = 100) := by
  have h1 : ∀ odd ∈ [(3:ℚ), 4, 5], 1 < odd := by intro odd h; fin_cases h <;> norm_num
  have h2 : sum_reciprocals [(3:ℚ), 4, 5] < 1 := by norm_num [sum_reciprocals]
  exact ⟨⟨by simp, h1, h2, by norm_num⟩,
    C2_stake_allocation [3, 4, 5] 100 (by simp) h1 h2 (by norm_num)⟩

/-! ## C3: behaviour on precondition-violating input -/

/-- C3 counterexample: the claim "a stake ≤ 0 yields a non-arbitrage zero
result" is false: `calculate_arbitrage` never inspects the stake, so with
odds [2, 4] (sum of reciprocals 3/4 < 1) and stake -1 it still reports an
arbitrage. -/
theorem C3_counterexample :
    (-1 : ℚ) ≤ 0 ∧ (calculate_arbitrage [2, 4] (-1)).is_arbitrage = true := by
  have h1 : ∀ odd ∈ [(2:ℚ), 4], 1 < odd := by intro odd h; fin_cases h <;> norm_num
  have h2 : sum_reciprocals [(2:ℚ), 4] < 1 := by norm_num [sum_reciprocals]
  refine ⟨by norm_num, ?_⟩
  rw [calculate_arbitrage_eq_of_valid [2, 4] (-1) (by simp) h1 h2]

/-- C3 amended: for an empty odds list or an odds list containing a value
≤ 1.0 (including zero — no division by zero is performed),
`calculate_arbitrage` returns a result with `is_arbitrage` false, zero
profit, an empty stake allocation and zero expected return; the stake
argument is not validated. -/
theorem C3_amended_invalid_odds_zero_result (odds_list : List ℚ) (stake : ℚ)
    (h : odds_list = [] ∨ ∃ odd ∈ odds_list, odd ≤ 1) :
    (calculate_arbitrage odds_list stake).is_arbitrage = false ∧
    (calculate_arbitrage odds_list stake).profit_percentage = 0 ∧
    (calculate_arbitrage odds_list stake).individual_stakes = [] ∧
    (calculate_arbitrage odds_list stake).expected_return = 0 := by
  rw [calculate_arbitrage, if_pos h]
  exact ⟨rfl, rfl, rfl, rfl⟩

/-- Witness for the amended C3 at the concrete input odds = [0, 2]
(a zero-valued odds), stake = 100. -/
theorem C3_amended_witness :
    ([(0:ℚ), 2] = [] ∨ ∃ odd ∈ [(0:ℚ), 2], odd ≤ 1) ∧
    ((calculate_arbitrage [0, 2] 100).is_arbitrage = false ∧
    (calculate_arbitrage [0, 2] 100).profit_percentage = 0 ∧
    (calculate_arbitrage [0, 2] 100).individual_stakes = [] ∧
    (calculate_arbitrage [0, 2] 100).expected_return = 0) := by
  have h : [(0:ℚ), 2] = [] ∨ ∃ odd ∈ [(0:ℚ), 2], odd ≤ 1 :=
    Or.inr ⟨0, by simp, by norm_num⟩
  exact ⟨h, C3_amended_invalid_odds_zero_result [0, 2] 100 h⟩

/-! ## C10: the two independent stake calculators agree -/

/-- C10: on valid arbitrage input (non-empty odds, each above 1, sum of
reciprocals below 1, positive total stake), the two independent calculators
`calculate_arbitrage` (arbitrage.py) and `calculate_optimal_stakes`
(bet_calculator.py) return equal `is_arbitrage`, equal `profit_percentage`,
equal `individual_stakes` and equal `expected_return`. -/
theorem C10_calculators_agree (odds_list : List ℚ) (stake : ℚ)
    (hne : odds_list ≠ []) (hgt : ∀ odd ∈ odds_list, 1 < odd)
    (harb : sum_reciprocals odds_list < 1) (hstake : 0 < stake) :
    (calculate_optimal_stakes odds_list stake).is_arbitrage =
      (calculate_arbitrage odds_list stake).is_arbitrage ∧
    (calculate_optimal_stakes odds_list stake).profit_percentage =
      (calculate_arbitrage odds_list stake).profit_percentage ∧
    (calculate_optimal_stakes odds_list stake).individual_stakes =
      (calculate_arbitrage odds_list stake).individual_stakes ∧
    (calculate_optimal_stakes odds_list stake).expected_return =
      (calculate_arbitrage odds_list stake).expected_return := by
  have hs0 : 0 < sum_reciprocals odds_list := sum_reciprocals_pos odds_list hne hgt
  have htot : (odds_list.map (fun odds => odds⁻¹)).sum = sum_reciprocals odds_list := by
    simp [sum_reciprocals, one_div]
  rw [calculate_arbitrage_eq_of_valid odds_list stake hne hgt harb]
  refine ⟨?_, ?_, ?_, ?_⟩
  · simp [calculate_optimal_stakes, htot, harb]
  · simp [calculate_optimal_stakes, htot, harb]
  · simp [calculate_optimal_stakes, htot]
  · rw [show (calculate_optimal_stakes odds_list stake).expected_return =
        (if 0 < sum_reciprocals odds_list then stake / sum_reciprocals odds_list else 0)
        from rfl, if_pos hs0]
    rw [← calculate_arbitrage_eq_of_valid odds_list stake hne hgt harb]
    exact (calculate_arbitrage_expected_return odds_list stake hne hgt harb).symm

/-- Witness for C10 at the concrete input odds = [3, 4, 5], stake = 100. -/
theorem C10_witness :
    ([(3:ℚ), 4, 5] ≠ [] ∧ (∀ odd ∈ [(3:ℚ), 4, 5], 1 < odd) ∧
      sum_reciprocals [3, 4, 5] < 1 ∧ (0:ℚ) < 100) ∧
    ((calculate_optimal_stakes [3, 4, 5] 100).is_arbitrage =
      (calculate_arbitrage [3, 4, 5] 100).is_arbitrage ∧
    (calculate_optimal_stakes [3, 4, 5] 100).profit_percentage =
      (calculate_arbitrage [3, 4, 5] 100).profit_percentage ∧
    (calculate_optimal_stakes [3, 4, 5] 100).individual_stakes =
      (calculate_arbitrage [3, 4, 5] 100).individual_stakes ∧
    (calculate_optimal_stakes [3, 4, 5] 100).expected_return =
      (calculate_arbitrage [3, 4, 5] 100).expected_return) := by
  have h1 : ∀ odd ∈ [(3:ℚ), 4, 5], 1 < odd := by intro odd h; fin_cases h <;> norm_num
  have h2 : sum_reciprocals [(3:ℚ), 4, 5] < 1 := by norm_num [sum_reciprocals]
  exact ⟨⟨by simp, h1, h2, by norm_num⟩,
    C10_calculators_agree [3, 4, 5] 100 (by simp) h1 h2 (by norm_num)⟩

/-! ## Name normalization and match keys (`api_parsers.py`)

Python strings are modelled as `List Char` (sequences of code points).
The regex character classes are modelled on their ASCII ranges, which is
exact for the repository's data: `\w` = letters, digits, underscore;
`\s` = space, tab, newline, carriage return, vertical tab, form feed. -/

/-- The regex class `\w` (ASCII): letters, digits and underscore. -/
def isWordChar (c : Char) : Bool :=
  decide ((65 ≤ c.toNat ∧ c.toNat ≤ 90) ∨ (97 ≤ c.toNat ∧ c.toNat ≤ 122) ∨
    (48 ≤ c.toNat ∧ c.toNat ≤ 57) ∨ c.toNat = 95)

/-- The regex class `\s` (ASCII): space, tab, newline, CR, VT, FF. -/
def isSpaceChar (c : Char) : Bool :=
  decide (c.toNat = 32 ∨ c.toNat = 9 ∨ c.toNat = 10 ∨ c.toNat = 13 ∨
    c.toNat = 11 ∨ c.toNat = 12)

/-- The class `[\w\s]`: characters kept by the punctuation-removal step. -/
def wordOrSpace (c : Char) : Bool := isWordChar c || isSpaceChar c

/-- The word-boundary assertion `\b` before a pattern whose first character
is a word character: the preceding character (if any) must not be one. -/
def leadOk (prev : Option Char) : Bool :=
  match prev with
  | none => true
  | some c => !isWordChar c

/-- The word-boundary assertion `\b` after a pattern `p`: if `p` ends in a
word character the next input character must not be one (or the input ends);
if `p` ends in a non-word character (the `f.c.` alternative) the next input
character must be a word character. -/
def tailOk (p : List Char) (rest : List Char) : Bool :=
  if isWordChar (p.getLastD ' ') then
    match rest with
    | [] => true
    | c :: _ => !isWordChar c
  else
    match rest with
    | [] => false
    | c :: _ => isWordChar c

/-- Whether the boundary-delimited pattern alternative `p` matches at the
current position of input `s`, given the previously consumed character. -/
def subMatch (prev : Option Char) (p : List Char) (s : List Char) : Bool :=
  !p.isEmpty && p.isPrefixOf s && leadOk prev && tailOk p (s.drop p.length)

/-- Embedding of `re.sub(pattern, '', s)` for an alternation of
boundary-delimited literal alternatives (api_parsers.py lines 24-26): scan
left to right; at each position try the alternatives in order; on a match
delete it and continue after it (boundary assertions read the original
characters, so `prev` becomes the last deleted character); otherwise emit
the character. A matched alternative is non-empty (`subMatch` checks
`!p.isEmpty`), so dropping `p.length - 1` of the tail consumes exactly the
match. -/
def subAlts (alts : List (List Char)) (prev : Option Char) (s : List Char) : List Char :=
  match s with
  | [] => []
  | c :: t =>
    match alts.find? (fun p => subMatch prev p (c :: t)) with
    | some p => subAlts alts (some (p.getLastD c)) (t.drop (p.length - 1))
    | none => c :: subAlts alts (some c) t
termination_by s.length
decreasing_by
  · simp only [List.length_cons, List.length_drop]
    omega
  · simp

/-- The pattern `fc` of `r'\bfc\b'` (api_parsers.py line 24). -/
def kwFC : List Char := ['f', 'c']

/-- The pattern `f.c.` of `r'\bf\.c\.\b'` (api_parsers.py line 24). -/
def kwFdotC : List Char := ['f', '.', 'c', '.']

/-- The pattern `united` of `r'\bunited\b'` (api_parsers.py line 25). -/
def kwUnited : List Char := ['u', 'n', 'i', 't', 'e', 'd']

/-- The pattern `utd` of `r'\butd\b'` (api_parsers.py line 25). -/
def kwUtd : List Char := ['u', 't', 'd']

/-- The pattern `city` of `r'\bcity\b'` (api_parsers.py line 26). -/
def kwCity : List Char := ['c', 'i', 't', 'y']

/-- Embedding of `re.sub(r'\s+', ' ', s)` (api_parsers.py line 30): replace
every maximal run of whitespace by a single space. `prevSpace` records
whether the previous character was part of a whitespace run. -/
def collapseWS (prevSpace : Bool) (s : List Char) : List Char :=
  match s with
  | [] => []
  | c :: t =>
    if isSpaceChar c then
      (if prevSpace then [] else [' ']) ++ collapseWS true t
    else c :: collapseWS false t

/-- Embedding of Python `str.strip()` (api_parsers.py line 30): drop leading
and trailing whitespace. -/
def stripStr (s : List Char) : List Char :=
  ((s.dropWhile isSpaceChar).reverse.dropWhile isSpaceChar).reverse

/-- Embedding of `normalize_team_name` (api_parsers.py lines 7-32):
empty input maps to the empty string; otherwise lower-case, remove the
boundary-delimited tokens `fc`/`f.c.`, then `united`/`utd`, then `city`,
remove every character outside `[\w\s]`, collapse whitespace runs to single
spaces and strip. -/
def normalize_team_name (name : List Char) : List Char :=
  if name = [] then []
  else
    let lowered := name.map Char.toLower
    let step1 := subAlts [kwFC, kwFdotC] none lowered
    let step2 := subAlts [kwUnited, kwUtd] none step1
    let step3 := subAlts [kwCity] none step2
    let step4 := step3.filter wordOrSpace
    stripStr (collapseWS false step4)

/-- Python string `<` comparison: lexicographic on code points. -/
def pyStrLt (a b : List Char) : Bool :=
  match a, b with
  | _, [] => false
  | [], _ :: _ => true
  | x :: xs, y :: ys => decide (x < y) || (decide (x = y) && pyStrLt xs ys)

/-- Embedding of `match_key` (api_parsers.py lines 34-51): normalize both
team names, sort the pair (Python `sorted` on two strings keeps the first
unless the second compares strictly smaller), and join with `" vs "`. -/
def match_key (team1 team2 : List Char) : List Char :=
  let norm_team1 := normalize_team_name team1
  let norm_team2 := normalize_team_name team2
  if pyStrLt norm_team2 norm_team1 then
    norm_team2 ++ " vs ".data ++ norm_team1
  else
    norm_team1 ++ " vs ".data ++ norm_team2

/-- Helper: `pyStrLt` is asymmetric. -/
theorem pyStrLt_asymm (a b : List Char) (h : pyStrLt a b = true) :
    pyStrLt b a = false := by
  induction a generalizing b with
  | nil =>
    cases b with
    | nil => simp [pyStrLt] at h
    | cons y ys => simp [pyStrLt]
  | cons x xs ih =>
    cases b with
    | nil => simp [pyStrLt] at h
    | cons y ys =>
      simp only [pyStrLt, Bool.or_eq_true, Bool.and_eq_true, decide_eq_true_eq] at h
      simp only [pyStrLt, Bool.or_eq_false_iff, Bool.and_eq_false_iff,
        decide_eq_false_iff_not]
      rcases h with hlt | ⟨heq, hrec⟩
      · exact ⟨lt_asymm hlt, Or.inl (ne_of_lt hlt).symm⟩
      · subst heq
        exact ⟨lt_irrefl x, Or.inr (ih ys hrec)⟩

/-- Helper: two strings neither of which compares below the other are equal. -/
theorem pyStrLt_conn (a b : List Char) (h1 : pyStrLt a b = false)
    (h2 : pyStrLt b a = false) : a = b := by
  induction a generalizing b with
  | nil =>
    cases b with
    | nil => rfl
    | cons y ys => simp [pyStrLt] at h1
  | cons x xs ih =>
    cases b with
    | nil => simp [pyStrLt] at h2
    | cons y ys =>
      simp only [pyStrLt, Bool.or_eq_false_iff, Bool.and_eq_false_iff,
        decide_eq_false_iff_not] at h1 h2
      obtain ⟨hxy, h1'⟩ := h1
      obtain ⟨hyx, h2'⟩ := h2
      have hxyeq : x = y := le_antisymm (le_of_not_lt hyx) (le_of_not_lt hxy)
      subst hxyeq
      rcases h1' with h1' | h1'
      · simp at h1'
      · rcases h2' with h2' | h2'
        · simp at h2'
        · rw [ih ys h1' h2']

/-! ## C7: order-independent match keys -/

/-- C7: the match key builder is order-independent: for every pair of team
name strings, `match_key(a, b) = match_key(b, a)`. -/
theorem C7_match_key_symm (team1 team2 : List Char) :
    match_key team1 team2 = match_key team2 team1 := by
  unfold match_key
  by_cases h1 : pyStrLt (normalize_team_name team2) (normalize_team_name team1) = true
  · rw [if_pos h1, if_neg (by rw [pyStrLt_asymm _ _ h1]; simp)]
  · by_cases h2 : pyStrLt (normalize_team_name team1) (normalize_team_name team2) = true
    · rw [if_neg h1, if_pos h2]
    · have h1' : pyStrLt (normalize_team_name team2) (normalize_team_name team1) = false := by
        simpa using h1
      have h2' : pyStrLt (normalize_team_name team1) (normalize_team_name team2) = false := by
        simpa using h2
      rw [if_neg h1, if_neg h2, pyStrLt_conn _ _ h2' h1']

/-! ## C8: normalization idempotence -/

/-- C8 counterexample: normalization is not idempotent. On `"f-c"` no
boundary-delimited token matches, but the punctuation-removal step then
manufactures a fresh standalone token: `normalize_team_name "f-c" = "fc"`,
and a second application deletes it: `normalize_team_name "fc" = ""`. -/
theorem C8_counterexample :
    normalize_team_name (normalize_team_name ['f', '-', 'c']) ≠
      normalize_team_name ['f', '-', 'c'] := by
  have h1 : normalize_team_name ['f', '-', 'c'] = ['f', 'c'] := by
    simp +decide [normalize_team_name, subAlts, kwFC, kwFdotC, kwUnited, kwUtd, kwCity]
  have h2 : normalize_team_name ['f', 'c'] = [] := by
    simp +decide [normalize_team_name, subAlts, kwFC, kwFdotC, kwUnited, kwUtd, kwCity]
  rw [h1, h2]
  simp

/-! ### Character-level helper lemmas -/

/-- Helper: `Char.ofNat` round-trips through `toNat` for small code points. -/
theorem char_toNat_ofNat (n : ℕ) (h : n ≤ 122) : (Char.ofNat n).toNat = n := by
  have hv : n.isValidChar := by left; omega
  simp [Char.ofNat, hv, Char.ofNatAux, Char.toNat, UInt32.toNat]

/-- Helper: the branch structure of `Char.toLower`. -/
theorem char_toLower_eq (c : Char) :
    c.toLower = if 65 ≤ c.toNat ∧ c.toNat ≤ 90 then Char.ofNat (c.toNat + 32) else c := by
  simp [Char.toLower, ge_iff_le]

/-- Helper: lower-casing is idempotent on characters. -/
theorem char_toLower_toLower (c : Char) : c.toLower.toLower = c.toLower := by
  by_cases h : 65 ≤ c.toNat ∧ c.toNat ≤ 90
  · have h1 : (Char.ofNat (c.toNat + 32)).toNat = c.toNat + 32 :=
      char_toNat_ofNat _ (by omega)
    rw [char_toLower_eq c, if_pos h, char_toLower_eq, h1, if_neg (by omega)]
  · rw [char_toLower_eq c, if_neg h, char_toLower_eq c, if_neg h]

/-- Helper: lower-casing preserves the `\w` class. -/
theorem isWordChar_toLower (c : Char) : isWordChar c.toLower = isWordChar c := by
  by_cases h : 65 ≤ c.toNat ∧ c.toNat ≤ 90
  · have h1 : (Char.ofNat (c.toNat + 32)).toNat = c.toNat + 32 :=
      char_toNat_ofNat _ (by omega)
    rw [char_toLower_eq c, if_pos h]
    simp only [isWordChar, h1, decide_eq_decide]
    omega
  · rw [char_toLower_eq c, if_neg h]

/-- Helper: lower-casing preserves the `\s` class. -/
theorem isSpaceChar_toLower (c : Char) : isSpaceChar c.toLower = isSpaceChar c := by
  by_cases h : 65 ≤ c.toNat ∧ c.toNat ≤ 90
  · have h1 : (Char.ofNat (c.toNat + 32)).toNat = c.toNat + 32 :=
      char_toNat_ofNat _ (by omega)
    rw [char_toLower_eq c, if_pos h]
    simp only [isSpaceChar, h1, decide_eq_decide]
    omega
  · rw [char_toLower_eq c, if_neg h]

/-- Helper: a whitespace character is not a word character. -/
theorem not_word_of_space (c : Char) (h : isSpaceChar c = true) :
    isWordChar c = false := by
  simp only [isSpaceChar, decide_eq_true_eq] at h
  simp only [isWordChar, decide_eq_false_iff_not]
  omega

/-- Helper: a word character is not whitespace. -/
theorem not_space_of_word (c : Char) (h : isWordChar c = true) :
    isSpaceChar c = false := by
  simp only [isWordChar, decide_eq_true_eq] at h
  simp only [isSpaceChar, decide_eq_false_iff_not]
  omega

/-! ### Word-run structure of normalized strings

`wordsOf` splits a string into its maximal runs of word characters; it is
the specification-side view used to reason about the boundary-delimited
token removals of `normalize_team_name`. -/

/-- Helper: `dropWhile` does not lengthen a list. -/
theorem length_dropWhile_le {α : Type} (p : α → Bool) (l : List α) :
    (l.dropWhile p).length ≤ l.length :=
  (List.dropWhile_sublist p).length_le

/-- The maximal word-character runs of a string, in order. -/
def wordsOf (s : List Char) : List (List Char) :=
  match s with
  | [] => []
  | c :: t =>
    if isWordChar c then
      (c :: t.takeWhile isWordChar) :: wordsOf (t.dropWhile isWordChar)
    else wordsOf t
termination_by s.length
decreasing_by
  · simp only [List.length_cons]
    exact Nat.lt_succ_of_le (length_dropWhile_le _ _)
  · simp

/-- Join a list of words with single spaces. -/
def joinWords : List (List Char) → List Char
  | [] => []
  | [w] => w
  | w :: ws => w ++ ' ' :: joinWords ws

/-- Helper: every word produced by `wordsOf` is non-empty and consists of
word characters only. -/
theorem wordsOf_words (s : List Char) :
    ∀ w ∈ wordsOf s, w ≠ [] ∧ ∀ c ∈ w, isWordChar c = true := by
  match s with
  | [] => simp [wordsOf]
  | c :: t =>
    simp only [wordsOf]
    by_cases h : isWordChar c
    · rw [if_pos h]
      intro w hw
      rcases List.mem_cons.1 hw with rfl | hw'
      · refine ⟨by simp, ?_⟩
        intro d hd
        rcases List.mem_cons.1 hd with rfl | hd'
        · exact h
        · exact List.mem_takeWhile_imp hd'
      · exact wordsOf_words (t.dropWhile isWordChar) w hw'
    · rw [if_neg h]
      exact wordsOf_words t
termination_by s.length
decreasing_by
  · have := length_dropWhile_le isWordChar t
    simp only [List.length_cons]
    omega
  · simp

/-- Helper: every character of a word of `wordsOf s` occurs in `s`. -/
theorem wordsOf_chars (s : List Char) :
    ∀ w ∈ wordsOf s, ∀ c ∈ w, c ∈ s := by
  match s with
  | [] => simp [wordsOf]
  | c :: t =>
    simp only [wordsOf]
    by_cases h : isWordChar c
    · rw [if_pos h]
      intro w hw d hd
      rcases List.mem_cons.1 hw with rfl | hw'
      · rcases List.mem_cons.1 hd with rfl | hd'
        · exact List.mem_cons_self _ _
        · exact List.mem_cons_of_mem _ ((List.takeWhile_sublist _).mem hd')
      · exact List.mem_cons_of_mem _
          ((List.dropWhile_sublist _).mem (wordsOf_chars _ w hw' d hd))
    · rw [if_neg h]
      intro w hw d hd
      exact List.mem_cons_of_mem _ (wordsOf_chars t w hw d hd)
termination_by s.length
decreasing_by
  · have := length_dropWhile_le isWordChar t
    simp only [List.length_cons]
    omega
  · simp

/-- Helper: a non-word leading character contributes no word. -/
theorem wordsOf_cons_not_word (c : Char) (t : List Char)
    (h : isWordChar c = false) : wordsOf (c :: t) = wordsOf t := by
  rw [wordsOf, if_neg (by simp [h])]

/-- Helper: dropping leading whitespace does not change the words. -/
theorem wordsOf_dropWhile_space (t : List Char) :
    wordsOf (t.dropWhile isSpaceChar) = wordsOf t := by
  induction t with
  | nil => rfl
  | cons c rest ih =>
    by_cases h : isSpaceChar c
    · rw [List.dropWhile_cons, if_pos h, ih, wordsOf_cons_not_word c rest (not_word_of_space c h)]
    · rw [List.dropWhile_cons, if_neg (by simp [h])]

/-- Helper: `wordsOf` of a word run followed by a non-word boundary. -/
theorem wordsOf_append_run (w rest : List Char) (hne : w ≠ [])
    (hw : ∀ c ∈ w, isWordChar c = true)
    (hrest : rest = [] ∨ ∃ d t, rest = d :: t ∧ isWordChar d = false) :
    wordsOf (w ++ rest) = w :: wordsOf rest := by
  cases w with
  | nil => exact absurd rfl hne
  | cons c w' =>
    have hc : isWordChar c = true := hw c (List.mem_cons_self _ _)
    have hw' : ∀ x ∈ w', isWordChar x = true :=
      fun x hx => hw x (List.mem_cons_of_mem _ hx)
    have htw : (w' ++ rest).takeWhile isWordChar = w' := by
      rw [List.takeWhile_append, if_pos]
      · rcases hrest with rfl | ⟨d, t, rfl, hd⟩
        · simp
        · rw [List.takeWhile_cons, if_neg (by simp [hd])]
          simp
      · rw [List.takeWhile_eq_self_iff.2 hw']
    have hdw : (w' ++ rest).dropWhile isWordChar = rest := by
      rw [List.dropWhile_append, if_pos]
      · rcases hrest with rfl | ⟨d, t, rfl, hd⟩
        · simp [List.dropWhile_eq_nil_iff.2 hw']
        · rw [List.dropWhile_cons, if_neg (by simp [hd])]
      · simp [List.dropWhile_eq_nil_iff.2 hw']
    rw [List.cons_append, wordsOf, if_pos hc, htw, hdw]

/-- Helper: splitting the joined words recovers them. -/
theorem wordsOf_joinWords (ws : List (List Char))
    (h : ∀ w ∈ ws, w ≠ [] ∧ ∀ c ∈ w, isWordChar c = true) :
    wordsOf (joinWords ws) = ws := by
  match ws with
  | [] => simp [joinWords, wordsOf]
  | [w] =>
    obtain ⟨hne, hw⟩ := h w (List.mem_cons_self _ _)
    have h2 := wordsOf_append_run w [] hne hw (Or.inl rfl)
    rw [List.append_nil] at h2
    have h0 : wordsOf ([] : List Char) = [] := by simp [wordsOf]
    rw [h0] at h2
    simpa [joinWords] using h2
  | w :: w₂ :: ws' =>
    obtain ⟨hne, hw⟩ := h w (List.mem_cons_self _ _)
    have hrec := wordsOf_joinWords (w₂ :: ws') (fun x hx => h x (List.mem_cons_of_mem _ hx))
    have hj : joinWords (w :: w₂ :: ws') = w ++ ' ' :: joinWords (w₂ :: ws') := by
      simp [joinWords]
    rw [hj, wordsOf_append_run w (' ' :: joinWords (w₂ :: ws')) hne hw
      (Or.inr ⟨' ', _, rfl, by decide⟩),
      wordsOf_cons_not_word ' ' _ (by decide), hrec]

/-! ### Whitespace collapsing and stripping lemmas -/

/-- Helper: the head of a non-empty `dropWhile` result fails the predicate. -/
theorem dropWhile_head_false {α : Type} (p : α → Bool) (l : List α) (d : α)
    (t : List α) (h : l.dropWhile p = d :: t) : p d = false := by
  induction l with
  | nil => simp at h
  | cons c r ih =>
    rw [List.dropWhile_cons] at h
    by_cases hc : p c = true
    · rw [if_pos hc] at h
      exact ih h
    · rw [if_neg hc] at h
      cases h
      simpa using hc

/-- Helper: every character of a collapsed string is a space or an input
character. -/
theorem mem_collapseWS (s : List Char) (b : Bool) (c : Char)
    (hc : c ∈ collapseWS b s) : c = ' ' ∨ c ∈ s := by
  induction s generalizing b with
  | nil => simp [collapseWS] at hc
  | cons d r ih =>
    simp only [collapseWS] at hc
    by_cases hd : isSpaceChar d = true
    · rw [if_pos hd] at hc
      rcases List.mem_append.1 hc with h1 | h2
      · left
        cases b with
        | true => simp at h1
        | false => simpa using h1
      · rcases ih true h2 with h' | h'
        · exact Or.inl h'
        · exact Or.inr (List.mem_cons_of_mem _ h')
    · rw [if_neg hd] at hc
      rcases List.mem_cons.1 hc with rfl | h
      · exact Or.inr (List.mem_cons_self _ _)
      · rcases ih false h with h' | h'
        · exact Or.inl h'
        · exact Or.inr (List.mem_cons_of_mem _ h')

/-- Helper: inside a whitespace run, collapsing behaves like dropping the
rest of the run. -/
theorem collapseWS_true_eq (t : List Char) :
    collapseWS true t = collapseWS false (t.dropWhile isSpaceChar) := by
  induction t with
  | nil => rfl
  | cons c r ih =>
    by_cases h : isSpaceChar c = true
    · rw [List.dropWhile_cons, if_pos h]
      simp only [collapseWS, h, if_pos, if_true]
      simpa using ih
    · rw [List.dropWhile_cons, if_neg h]
      simp only [collapseWS, h]
      simp

/-- Helper: collapsing passes an all-word prefix through unchanged. -/
theorem collapseWS_word_append (w rest : List Char)
    (hw : ∀ c ∈ w, isWordChar c = true) :
    collapseWS false (w ++ rest) = w ++ collapseWS false rest := by
  induction w with
  | nil => simp
  | cons c w' ih =>
    have hc : isSpaceChar c = false := not_space_of_word c (hw c (List.mem_cons_self _ _))
    have h1 : collapseWS false ((c :: w') ++ rest) = c :: collapseWS false (w' ++ rest) := by
      rw [List.cons_append]
      simp only [collapseWS]
      rw [if_neg (by simp [hc])]
    rw [h1, ih (fun x hx => hw x (List.mem_cons_of_mem _ hx)), List.cons_append]

/-- Helper: right-stripping distributes over appending after a block that
ends in a non-space character. -/
theorem rstrip_append (A X : List Char) (b : Char) (B : List Char)
    (hA : A.reverse = b :: B) (hb : isSpaceChar b = false) :
    ((A ++ X).reverse.dropWhile isSpaceChar).reverse =
      A ++ (X.reverse.dropWhile isSpaceChar).reverse := by
  rw [List.reverse_append, List.dropWhile_append]
  by_cases h : (X.reverse.dropWhile isSpaceChar).isEmpty = true
  · rw [if_pos h, hA, List.dropWhile_cons, if_neg (by simp [hb]), ← hA,
      List.reverse_reverse, List.isEmpty_iff.1 h]
    simp
  · rw [if_neg h, List.reverse_append, List.reverse_reverse]

/-- Helper: an all-word non-empty block ends in a non-space character. -/
theorem exists_reverse_word (w : List Char) (hne : w ≠ [])
    (hw : ∀ c ∈ w, isWordChar c = true) :
    ∃ b B, w.reverse = b :: B ∧ isSpaceChar b = false := by
  rcases List.eq_nil_or_concat w with rfl | ⟨L, b, rfl⟩
  · exact absurd rfl hne
  · refine ⟨b, L.reverse, ?_, ?_⟩
    · simp [List.concat_eq_append]
    · exact not_space_of_word b (hw b (by simp [List.concat_eq_append]))

/-- Helper (fuel-indexed): right-stripping the collapse of a fragment string
that is empty or starts with whitespace yields a single leading space before
its joined words, or nothing if it has no words. -/
theorem rstrip_collapse_aux (n : ℕ) (rest : List Char) (hlen : rest.length ≤ n)
    (hfrag : ∀ c ∈ rest, wordOrSpace c = true)
    (hhead : rest = [] ∨ ∃ c t, rest = c :: t ∧ isSpaceChar c = true) :
    ((collapseWS false rest).reverse.dropWhile isSpaceChar).reverse =
      if wordsOf rest = [] then [] else ' ' :: joinWords (wordsOf rest) := by
  induction n generalizing rest with
  | zero =>
    have : rest = [] := List.length_eq_zero.1 (Nat.le_zero.1 hlen)
    subst this
    simp [collapseWS, wordsOf]
  | succ n ih =>
    rcases hhead with rfl | ⟨c, t, rfl, hc⟩
    · simp [collapseWS, wordsOf]
    · have hcol : collapseWS false (c :: t) =
          ' ' :: collapseWS false (t.dropWhile isSpaceChar) := by
        simp only [collapseWS, hc, if_pos, if_true]
        rw [collapseWS_true_eq]
        simp
      have hwords : wordsOf (c :: t) = wordsOf (t.dropWhile isSpaceChar) := by
        rw [wordsOf_cons_not_word c t (not_word_of_space c hc), wordsOf_dropWhile_space]
      rw [hcol, hwords]
      cases hu : t.dropWhile isSpaceChar with
      | nil =>
        have h1 : collapseWS false ([] : List Char) = [] := rfl
        have h2 : wordsOf ([] : List Char) = [] := by simp [wordsOf]
        rw [h1, h2, if_pos rfl]
        decide
      | cons d u' =>
        have hd_not_space : isSpaceChar d = false := dropWhile_head_false _ t d u' hu
        have hmem_u : ∀ x ∈ d :: u', x ∈ c :: t := by
          intro x hx
          rw [← hu] at hx
          exact List.mem_cons_of_mem _ ((List.dropWhile_sublist _).mem hx)
        have hd_word : isWordChar d = true := by
          have := hfrag d (hmem_u d (List.mem_cons_self _ _))
          simp only [wordOrSpace, Bool.or_eq_true] at this
          rcases this with h' | h'
          · exact h'
          · rw [hd_not_space] at h'
            simp at h'
        set w := d :: u'.takeWhile isWordChar with hw_def
        set rest₂ := u'.dropWhile isWordChar with hrest₂_def
        have hsplit : d :: u' = w ++ rest₂ := by
          rw [hw_def, hrest₂_def, List.cons_append, List.takeWhile_append_dropWhile]
        have hw_all : ∀ x ∈ w, isWordChar x = true := by
          intro x hx
          rcases List.mem_cons.1 hx with rfl | hx'
          · exact hd_word
          · exact List.mem_takeWhile_imp hx'
        have hrest₂_head : rest₂ = [] ∨ ∃ e t', rest₂ = e :: t' ∧ isWordChar e = false := by
          cases he : rest₂ with
          | nil => exact Or.inl rfl
          | cons e t' => exact Or.inr ⟨e, t', rfl, dropWhile_head_false _ u' e t' he⟩
        have hrest₂_space : rest₂ = [] ∨ ∃ e t', rest₂ = e :: t' ∧ isSpaceChar e = true := by
          rcases hrest₂_head with h' | ⟨e, t', he, hew⟩
          · exact Or.inl h'
          · refine Or.inr ⟨e, t', he, ?_⟩
            have hmem : e ∈ c :: t := by
              apply hmem_u
              rw [hsplit, he]
              exact List.mem_append.2 (Or.inr (List.mem_cons_self _ _))
            have := hfrag e hmem
            simp only [wordOrSpace, Bool.or_eq_true] at this
            rcases this with h'' | h''
            · rw [hew] at h''
              simp at h''
            · exact h''
        have hfrag₂ : ∀ x ∈ rest₂, wordOrSpace x = true := by
          intro x hx
          apply hfrag
          apply hmem_u
          rw [hsplit]
          exact List.mem_append.2 (Or.inr hx)
        have hlen₂ : rest₂.length ≤ n := by
          have h1 : rest₂.length ≤ u'.length := length_dropWhile_le _ _
          have h2 : (d :: u').length ≤ t.length := by
            rw [← hu]
            exact length_dropWhile_le _ _
          simp only [List.length_cons] at h2 hlen
          omega
        have hcw : collapseWS false (d :: u') = w ++ collapseWS false rest₂ := by
          rw [hsplit, collapseWS_word_append w rest₂ hw_all]
        have hww : wordsOf (d :: u') = w :: wordsOf rest₂ := by
          rw [hsplit, wordsOf_append_run w rest₂ (by simp [hw_def]) hw_all hrest₂_head]
        rw [hcw, hww]
        obtain ⟨b, B, hrev, hb⟩ := exists_reverse_word w (by simp [hw_def]) hw_all
        have hrevA : (' ' :: w).reverse = b :: (B ++ [' ']) := by
          rw [List.reverse_cons, hrev]
          simp
        have hstep := rstrip_append (' ' :: w) (collapseWS false rest₂) b (B ++ [' '])
          hrevA hb
        rw [show ' ' :: (w ++ collapseWS false rest₂) =
          (' ' :: w) ++ collapseWS false rest₂ from rfl, hstep,
          ih rest₂ hlen₂ hfrag₂ hrest₂_space]
        rw [if_neg (show ¬(w :: wordsOf rest₂ = []) from by simp)]
        by_cases hwr : wordsOf rest₂ = []
        · rw [if_pos hwr, hwr]
          simp [joinWords]
        · rw [if_neg hwr]
          cases hw2 : wordsOf rest₂ with
          | nil => exact absurd hw2 hwr
          | cons w₂ ws' => simp [joinWords]

/-- Helper: collapsing a string that starts a whitespace run. -/
theorem collapseWS_cons_space (c : Char) (t : List Char) (hc : isSpaceChar c = true) :
    collapseWS false (c :: t) = ' ' :: collapseWS false (t.dropWhile isSpaceChar) := by
  simp only [collapseWS, hc, if_pos, if_true]
  rw [collapseWS_true_eq]
  simp

/-- Helper: dropping from a list the length of its `takeWhile` leaves its
`dropWhile`. -/
theorem drop_length_takeWhile {α : Type} (p : α → Bool) (t : List α) :
    t.drop (t.takeWhile p).length = t.dropWhile p := by
  nth_rewrite 2 [← List.takeWhile_append_dropWhile p t]
  rw [List.drop_left]

/-- Helper: the space character is whitespace. -/
theorem isSpaceChar_space : isSpaceChar ' ' = true := by decide

/-- Helper (fuel-indexed): on a fragment string (word characters and
whitespace only), collapsing whitespace and stripping is joining the words
with single spaces. -/
theorem stripcollapse_aux (n : ℕ) (t : List Char) (hlen : t.length ≤ n)
    (hfrag : ∀ c ∈ t, wordOrSpace c = true) :
    stripStr (collapseWS false t) = joinWords (wordsOf t) := by
  induction n generalizing t with
  | zero =>
    have : t = [] := List.length_eq_zero.1 (Nat.le_zero.1 hlen)
    subst this
    simp [stripStr, collapseWS, wordsOf, joinWords]
  | succ n ih =>
    cases t with
    | nil => simp [stripStr, collapseWS, wordsOf, joinWords]
    | cons c r =>
      have hlen' : r.length ≤ n := by
        simp only [List.length_cons] at hlen
        omega
      by_cases hcs : isSpaceChar c = true
      · rw [collapseWS_cons_space c r hcs]
        have hstrip : stripStr (' ' :: collapseWS false (r.dropWhile isSpaceChar)) =
            stripStr (collapseWS false (r.dropWhile isSpaceChar)) := by
          simp [stripStr, List.dropWhile_cons, isSpaceChar_space]
        have hlen'' : (r.dropWhile isSpaceChar).length ≤ n :=
          le_trans (length_dropWhile_le _ _) hlen'
        have hfrag'' : ∀ x ∈ r.dropWhile isSpaceChar, wordOrSpace x = true :=
          fun x hx => hfrag x (List.mem_cons_of_mem _ ((List.dropWhile_sublist _).mem hx))
        rw [hstrip, ih (r.dropWhile isSpaceChar) hlen'' hfrag'',
          wordsOf_dropWhile_space, wordsOf_cons_not_word c r (not_word_of_space c hcs)]
      · have hcw : isWordChar c = true := by
          have := hfrag c (List.mem_cons_self _ _)
          simp only [wordOrSpace, Bool.or_eq_true] at this
          rcases this with h' | h'
          · exact h'
          · exact absurd h' hcs
        set w := c :: r.takeWhile isWordChar with hw_def
        set rest₂ := r.dropWhile isWordChar with hrest₂_def
        have hsplit : c :: r = w ++ rest₂ := by
          rw [hw_def, hrest₂_def, List.cons_append, List.takeWhile_append_dropWhile]
        have hw_all : ∀ x ∈ w, isWordChar x = true := by
          intro x hx
          rcases List.mem_cons.1 hx with rfl | hx'
          · exact hcw
          · exact List.mem_takeWhile_imp hx'
        have hrest₂_head : rest₂ = [] ∨ ∃ e t', rest₂ = e :: t' ∧ isWordChar e = false := by
          cases he : rest₂ with
          | nil => exact Or.inl rfl
          | cons e t' => exact Or.inr ⟨e, t', rfl, dropWhile_head_false _ r e t' he⟩
        have hfrag₂ : ∀ x ∈ rest₂, wordOrSpace x = true :=
          fun x hx => hfrag x (List.mem_cons_of_mem _ ((List.dropWhile_sublist _).mem hx))
        have hrest₂_space : rest₂ = [] ∨ ∃ e t', rest₂ = e :: t' ∧ isSpaceChar e = true := by
          rcases hrest₂_head with h' | ⟨e, t', he, hew⟩
          · exact Or.inl h'
          · refine Or.inr ⟨e, t', he, ?_⟩
            have := hfrag₂ e (by rw [he]; exact List.mem_cons_self _ _)
            simp only [wordOrSpace, Bool.or_eq_true] at this
            rcases this with h'' | h''
            · rw [hew] at h''
              simp at h''
            · exact h''
        have hlen₂ : rest₂.length ≤ n := le_trans (length_dropWhile_le _ _) hlen'
        have hcw_app : collapseWS false (c :: r) = w ++ collapseWS false rest₂ := by
          rw [hsplit, collapseWS_word_append w rest₂ hw_all]
        have hww : wordsOf (c :: r) = w :: wordsOf rest₂ := by
          rw [hsplit, wordsOf_append_run w rest₂ (by simp [hw_def]) hw_all hrest₂_head]
        rw [hcw_app, hww]
        have hdropw : (w ++ collapseWS false rest₂).dropWhile isSpaceChar =
            w ++ collapseWS false rest₂ := by
          rw [hw_def, List.cons_append, List.dropWhile_cons,
            if_neg (by simp [not_space_of_word c hcw])]
        obtain ⟨b, B, hrev, hb⟩ := exists_reverse_word w (by simp [hw_def]) hw_all
        have hstep := rstrip_append w (collapseWS false rest₂) b B hrev hb
        rw [stripStr, hdropw, hstep,
          rstrip_collapse_aux n rest₂ hlen₂ hfrag₂ hrest₂_space]
        by_cases hwr : wordsOf rest₂ = []
        · rw [if_pos hwr, hwr]
          simp [joinWords]
        · rw [if_neg hwr]
          cases hw2 : wordsOf rest₂ with
          | nil => exact absurd hw2 hwr
          | cons w₂ ws' => simp [joinWords]

/-- Helper: collapsing and stripping a fragment string joins its words. -/
theorem stripcollapse_eq_joinWords (t : List Char)
    (hfrag : ∀ c ∈ t, wordOrSpace c = true) :
    stripStr (collapseWS false t) = joinWords (wordsOf t) :=
  stripcollapse_aux t.length t le_rfl hfrag

/-! ### Word-boundary substitution lemmas -/

/-- Helper: no boundary pattern (non-empty, starting with a word character)
matches at a whitespace character. -/
theorem subMatch_false_space_head (prev : Option Char) (p : List Char)
    (hpne : p ≠ []) (hph : isWordChar (p.headD ' ') = true)
    (c : Char) (t : List Char) (hc : isSpaceChar c = true) :
    subMatch prev p (c :: t) = false := by
  cases p with
  | nil => exact absurd rfl hpne
  | cons a p' =>
    have ha : isWordChar a = true := by simpa using hph
    have hac : (a == c) = false := by
      simp only [beq_eq_false_iff_ne, ne_eq]
      intro h
      rw [h, not_word_of_space c hc] at ha
      simp at ha
    simp [subMatch, List.isPrefixOf, hac]

/-- Helper: no pattern matches immediately after a word character. -/
theorem subMatch_false_word_prev (pc : Char) (hpc : isWordChar pc = true)
    (p s : List Char) : subMatch (some pc) p s = false := by
  simp [subMatch, leadOk, hpc]

/-- Helper: the last character of a non-empty all-word pattern is a word
character. -/
theorem getLastD_word (p : List Char) (hpne : p ≠ [])
    (hp : ∀ c ∈ p, isWordChar c = true) (d : Char) :
    isWordChar (p.getLastD d) = true := by
  rcases List.eq_nil_or_concat p with rfl | ⟨L, b, rfl⟩
  · exact absurd rfl hpne
  · rw [List.concat_eq_append, List.getLastD_concat]
    exact hp b (by simp [List.concat_eq_append])

/-- Helper: an all-word boundary pattern matching at the head of a word run
followed by a non-word boundary is exactly that word run. -/
theorem subMatch_eq_run (prev : Option Char) (p : List Char) (hpne : p ≠ [])
    (hpw : ∀ c ∈ p, isWordChar c = true) (w rest : List Char) (hwne : w ≠ [])
    (hww : ∀ c ∈ w, isWordChar c = true)
    (hrest : rest = [] ∨ ∃ d t', rest = d :: t' ∧ isWordChar d = false)
    (hm : subMatch prev p (w ++ rest) = true) : p = w := by
  simp only [subMatch, Bool.and_eq_true] at hm
  obtain ⟨⟨⟨_, hpre⟩, _⟩, htail⟩ := hm
  have hpre' : p <+: w ++ rest := List.isPrefixOf_iff_prefix.1 hpre
  have hplast : isWordChar (p.getLastD ' ') = true := getLastD_word p hpne hpw ' '
  rcases List.prefix_or_prefix_of_prefix hpre' (List.prefix_append w rest) with h | h
  · obtain ⟨w'', rfl⟩ := h
    cases w'' with
    | nil => simp
    | cons e w₃ =>
      exfalso
      have hd : ((p ++ e :: w₃) ++ rest).drop p.length = e :: (w₃ ++ rest) := by
        rw [List.append_assoc, List.drop_left]
        simp
      rw [hd] at htail
      have he : isWordChar e = true := hww e (by simp)
      rw [tailOk.eq_def, if_pos hplast] at htail
      simp [he] at htail
  · obtain ⟨p', rfl⟩ := h
    cases p' with
    | nil => simp
    | cons d p₃ =>
      exfalso
      have h2 : (d :: p₃) <+: rest := (List.prefix_append_right_inj w).1 hpre'
      have hd_word : isWordChar d = true := hpw d (by simp)
      rcases hrest with rfl | ⟨e, t', he, hew⟩
      · obtain ⟨t₂, ht⟩ := h2
        simp at ht
      · obtain ⟨t₂, ht⟩ := h2
        rw [he] at ht
        simp only [List.cons_append, List.cons.injEq] at ht
        rw [← ht.1, hd_word] at hew
        simp at hew

/-- Helper: a non-empty all-word pattern matches its own occurrence as a
word run at a valid boundary. -/
theorem subMatch_self (prev : Option Char) (hlead : leadOk prev = true)
    (w rest : List Char) (hwne : w ≠ []) (hww : ∀ c ∈ w, isWordChar c = true)
    (hrest : rest = [] ∨ ∃ d t', rest = d :: t' ∧ isWordChar d = false) :
    subMatch prev w (w ++ rest) = true := by
  have hemp : w.isEmpty = false := by
    cases w with
    | nil => exact absurd rfl hwne
    | cons a l => rfl
  simp only [subMatch, Bool.and_eq_true]
  refine ⟨⟨⟨by simp [hemp], List.isPrefixOf_iff_prefix.2 (List.prefix_append w rest)⟩,
    hlead⟩, ?_⟩
  rw [List.drop_left, tailOk.eq_def, if_pos (getLastD_word w hwne hww ' ')]
  rcases hrest with rfl | ⟨d, t', rfl, hd⟩
  · rfl
  · simp [hd]

/-- Helper: on fragment input, a matching pattern alternative is exactly the
leading word run (patterns containing characters outside `[\w\s]`, such as
`f.c.`, can never match inside a fragment string). -/
theorem subMatch_run_of_frag (p : List Char) (hpne : p ≠ [])
    (hpshape : (∀ x ∈ p, isWordChar x = true) ∨ ∃ x ∈ p, wordOrSpace x = false)
    (prev : Option Char) (w rest : List Char) (hwne : w ≠ [])
    (hw_all : ∀ x ∈ w, isWordChar x = true)
    (hrest_head : rest = [] ∨ ∃ d t', rest = d :: t' ∧ isWordChar d = false)
    (hfrag : ∀ x ∈ w ++ rest, wordOrSpace x = true)
    (hm : subMatch prev p (w ++ rest) = true) : p = w := by
  rcases hpshape with hall | ⟨x, hx, hbad⟩
  · exact subMatch_eq_run prev p hpne hall w rest hwne hw_all hrest_head hm
  · exfalso
    have hpre : p <+: w ++ rest := by
      simp only [subMatch, Bool.and_eq_true] at hm
      exact List.isPrefixOf_iff_prefix.1 hm.1.1.2
    have hmem : x ∈ w ++ rest := hpre.subset hx
    rw [hfrag x hmem] at hbad
    simp at hbad

/-- Helper: immediately after a word character, the scanner copies a word
run unchanged. -/
theorem subAlts_pass_word (alts : List (List Char)) (pc : Char)
    (hpc : isWordChar pc = true) (w : List Char)
    (hw : ∀ c ∈ w, isWordChar c = true) (X : List Char) :
    subAlts alts (some pc) (w ++ X) = w ++ subAlts alts (some (w.getLastD pc)) X := by
  induction w generalizing pc with
  | nil => simp [List.getLastD]
  | cons d w' ih =>
    have hd : isWordChar d = true := hw d (List.mem_cons_self _ _)
    have hfind : alts.find? (fun p => subMatch (some pc) p (d :: (w' ++ X))) = none :=
      List.find?_eq_none.2 (fun p _ => by simp [subMatch_false_word_prev pc hpc])
    have hstep : subAlts alts (some pc) (d :: (w' ++ X)) =
        d :: subAlts alts (some d) (w' ++ X) := by
      simp only [subAlts]
      rw [hfind]
    rw [List.cons_append, hstep, ih d hd (fun c hc => hw c (List.mem_cons_of_mem _ hc)),
      List.getLastD_cons]
    simp

/-- Helper: the scanner copies a whitespace character unchanged. -/
theorem subAlts_head_space (alts : List (List Char))
    (halts : ∀ p ∈ alts, p ≠ [] ∧ isWordChar (p.headD ' ') = true)
    (prev : Option Char) (c : Char) (t : List Char) (hc : isSpaceChar c = true) :
    subAlts alts prev (c :: t) = c :: subAlts alts (some c) t := by
  have hfind : alts.find? (fun p => subMatch prev p (c :: t)) = none :=
    List.find?_eq_none.2 (fun p hp => by
      simp [subMatch_false_space_head prev p (halts p hp).1 (halts p hp).2 c t hc])
  simp only [subAlts]
  rw [hfind]

/-- Helper (fuel-indexed): on a fragment string one boundary-substitution
pass deletes exactly the maximal word runs equal to one of the pattern
alternatives. The previous-character state is sound when it is not a word
character or when the input starts with whitespace (or is empty). -/
theorem wordsOf_subAlts_aux (alts : List (List Char))
    (halts : ∀ p ∈ alts, p ≠ [] ∧ isWordChar (p.headD ' ') = true ∧
      ((∀ c ∈ p, isWordChar c = true) ∨ ∃ c ∈ p, wordOrSpace c = false))
    (n : ℕ) : ∀ (s : List Char), s.length ≤ n → (∀ c ∈ s, wordOrSpace c = true) →
    ∀ (prev : Option Char),
    ((∀ pc, prev = some pc → isWordChar pc = false) ∨
      s = [] ∨ ∃ c t, s = c :: t ∧ isSpaceChar c = true) →
    wordsOf (subAlts alts prev s) =
      (wordsOf s).filter (fun w => !decide (w ∈ alts)) := by
  induction n with
  | zero =>
    intro s hlen _ prev _
    have : s = [] := List.length_eq_zero.1 (Nat.le_zero.1 hlen)
    subst this
    simp [subAlts, wordsOf]
  | succ n ih =>
    intro s hlen hfrag prev hprev
    cases s with
    | nil => simp [subAlts, wordsOf]
    | cons c t =>
      have hlen' : t.length ≤ n := by
        simp only [List.length_cons] at hlen
        omega
      by_cases hcs : isSpaceChar c = true
      · rw [subAlts_head_space alts (fun p hp => ⟨(halts p hp).1, (halts p hp).2.1⟩)
          prev c t hcs,
          wordsOf_cons_not_word c _ (not_word_of_space c hcs),
          wordsOf_cons_not_word c t (not_word_of_space c hcs)]
        exact ih t hlen' (fun x hx => hfrag x (List.mem_cons_of_mem _ hx)) (some c)
          (Or.inl (fun pc hpc => by cases hpc; exact not_word_of_space c hcs))
      · have hcw : isWordChar c = true := by
          have := hfrag c (List.mem_cons_self _ _)
          simp only [wordOrSpace, Bool.or_eq_true] at this
          tauto
        have hlead : leadOk prev = true := by
          rcases hprev with h | h | ⟨c', t', heq, hsp⟩
          · cases prev with
            | none => rfl
            | some pc => simp [leadOk, h pc rfl]
          · simp at h
          · injection heq with h1 h2
            rw [← h1] at hsp
            exact absurd hsp hcs
        have hw_all : ∀ x ∈ c :: t.takeWhile isWordChar, isWordChar x = true := by
          intro x hx
          rcases List.mem_cons.1 hx with rfl | hx'
          · exact hcw
          · exact List.mem_takeWhile_imp hx'
        have hwne : (c :: t.takeWhile isWordChar) ≠ [] := by simp
        have hsplit : c :: t = (c :: t.takeWhile isWordChar) ++ t.dropWhile isWordChar := by
          rw [List.cons_append, List.takeWhile_append_dropWhile]
        have hrest_head : t.dropWhile isWordChar = [] ∨
            ∃ e t', t.dropWhile isWordChar = e :: t' ∧ isWordChar e = false := by
          cases he : t.dropWhile isWordChar with
          | nil => exact Or.inl rfl
          | cons e t' => exact Or.inr ⟨e, t', rfl, dropWhile_head_false _ t e t' he⟩
        have hfrag_r : ∀ x ∈ t.dropWhile isWordChar, wordOrSpace x = true :=
          fun x hx => hfrag x (List.mem_cons_of_mem _ ((List.dropWhile_sublist _).mem hx))
        have hrest_space : t.dropWhile isWordChar = [] ∨
            ∃ e t', t.dropWhile isWordChar = e :: t' ∧ isSpaceChar e = true := by
          rcases hrest_head with h' | ⟨e, t', he, hew⟩
          · exact Or.inl h'
          · refine Or.inr ⟨e, t', he, ?_⟩
            have := hfrag_r e (by rw [he]; exact List.mem_cons_self _ _)
            simp only [wordOrSpace, Bool.or_eq_true] at this
            rcases this with h'' | h''
            · rw [hew] at h''
              simp at h''
            · exact h''
        have hlen_r : (t.dropWhile isWordChar).length ≤ n :=
          le_trans (length_dropWhile_le _ _) hlen'
        have hfrag_wr : ∀ x ∈ (c :: t.takeWhile isWordChar) ++ t.dropWhile isWordChar,
            wordOrSpace x = true := by
          rw [← hsplit]
          exact hfrag
        have hwords : wordsOf (c :: t) =
            (c :: t.takeWhile isWordChar) :: wordsOf (t.dropWhile isWordChar) := by
          conv_lhs => rw [hsplit]
          rw [wordsOf_append_run _ _ hwne hw_all hrest_head]
        by_cases hmem : (c :: t.takeWhile isWordChar) ∈ alts
        · have hmatch : subMatch prev (c :: t.takeWhile isWordChar) (c :: t) = true := by
            conv_lhs => rw [hsplit]
            exact subMatch_self prev hlead _ _ hwne hw_all hrest_head
          have hsome : (alts.find? (fun p => subMatch prev p (c :: t))).isSome = true :=
            List.find?_isSome.2 ⟨c :: t.takeWhile isWordChar, hmem, hmatch⟩
          obtain ⟨p, hp⟩ := Option.isSome_iff_exists.1 hsome
          have hpmem : p ∈ alts := List.mem_of_find?_eq_some hp
          have hpmatch : subMatch prev p (c :: t) = true :=
            @List.find?_some (List Char) (fun q => subMatch prev q (c :: t)) p alts hp
          have hpeq : p = c :: t.takeWhile isWordChar := by
            apply subMatch_run_of_frag p (halts p hpmem).1 (halts p hpmem).2.2 prev _ _
              hwne hw_all hrest_head hfrag_wr
            rw [← hsplit]
            exact hpmatch
          rw [hpeq] at hp
          have hdrop : t.drop ((c :: t.takeWhile isWordChar).length - 1) =
              t.dropWhile isWordChar := by
            simp only [List.length_cons, Nat.add_sub_cancel]
            exact drop_length_takeWhile _ t
          have hstep : subAlts alts prev (c :: t) =
              subAlts alts (some ((c :: t.takeWhile isWordChar).getLastD c))
                (t.drop ((c :: t.takeWhile isWordChar).length - 1)) := by
            simp only [subAlts]
            rw [hp]
          rw [hstep, hdrop,
            ih (t.dropWhile isWordChar) hlen_r hfrag_r _ (Or.inr hrest_space), hwords]
          simp [List.filter_cons, hmem]
        · have hfind : alts.find? (fun p => subMatch prev p (c :: t)) = none := by
            apply List.find?_eq_none.2
            intro p hp hpm
            have hpeq : p = c :: t.takeWhile isWordChar := by
              apply subMatch_run_of_frag p (halts p hp).1 (halts p hp).2.2 prev _ _
                hwne hw_all hrest_head hfrag_wr
              rw [← hsplit]
              exact hpm
            exact hmem (hpeq ▸ hp)
          have hstep : subAlts alts prev (c :: t) = c :: subAlts alts (some c) t := by
            simp only [subAlts]
            rw [hfind]
          have hpass : subAlts alts (some c) t =
              t.takeWhile isWordChar ++
                subAlts alts (some ((t.takeWhile isWordChar).getLastD c))
                  (t.dropWhile isWordChar) := by
            conv_lhs => rw [show t = t.takeWhile isWordChar ++ t.dropWhile isWordChar from
              (List.takeWhile_append_dropWhile _ _).symm]
            exact subAlts_pass_word alts c hcw (t.takeWhile isWordChar)
              (fun x hx => List.mem_takeWhile_imp hx) (t.dropWhile isWordChar)
          have hout : subAlts alts (some ((t.takeWhile isWordChar).getLastD c))
                (t.dropWhile isWordChar) = [] ∨
              ∃ e o, subAlts alts (some ((t.takeWhile isWordChar).getLastD c))
                (t.dropWhile isWordChar) = e :: o ∧ isWordChar e = false := by
            rcases hrest_space with hre | ⟨e, t', hre, hesp⟩
            · left
              rw [hre]
              simp [subAlts]
            · right
              rw [hre, subAlts_head_space alts
                (fun p hp => ⟨(halts p hp).1, (halts p hp).2.1⟩) _ e t' hesp]
              exact ⟨e, _, rfl, not_word_of_space e hesp⟩
          rw [hstep, hpass, ← List.cons_append,
            wordsOf_append_run _ _ hwne hw_all hout,
            ih (t.dropWhile isWordChar) hlen_r hfrag_r _ (Or.inr hrest_space), hwords]
          simp [List.filter_cons, hmem]

/-- Helper: the scanner on a fragment string deletes exactly the maximal
word runs that equal a pattern alternative. -/
theorem wordsOf_subAlts (alts : List (List Char))
    (halts : ∀ p ∈ alts, p ≠ [] ∧ isWordChar (p.headD ' ') = true ∧
      ((∀ c ∈ p, isWordChar c = true) ∨ ∃ c ∈ p, wordOrSpace c = false))
    (s : List Char) (hfrag : ∀ c ∈ s, wordOrSpace c = true) :
    wordsOf (subAlts alts none s) =
      (wordsOf s).filter (fun w => !decide (w ∈ alts)) :=
  wordsOf_subAlts_aux alts halts s.length s le_rfl hfrag none (Or.inl (by simp))

/-- Helper (fuel-indexed): the scanner only deletes characters. -/
theorem subAlts_mem_aux (n : ℕ) : ∀ (alts : List (List Char)) (prev : Option Char)
    (s : List Char), s.length ≤ n → ∀ c ∈ subAlts alts prev s, c ∈ s := by
  induction n with
  | zero =>
    intro alts prev s hlen c hc
    have : s = [] := List.length_eq_zero.1 (Nat.le_zero.1 hlen)
    subst this
    simp [subAlts] at hc
  | succ n ih =>
    intro alts prev s hlen c hc
    cases s with
    | nil => simp [subAlts] at hc
    | cons a t =>
      have hlen' : t.length ≤ n := by
        simp only [List.length_cons] at hlen
        omega
      cases hfind : alts.find? (fun p => subMatch prev p (a :: t)) with
      | some p =>
        have hstep : subAlts alts prev (a :: t) =
            subAlts alts (some (p.getLastD a)) (t.drop (p.length - 1)) := by
          simp only [subAlts]
          rw [hfind]
        rw [hstep] at hc
        have hlen₂ : (t.drop (p.length - 1)).length ≤ n := by
          simp only [List.length_drop]
          omega
        exact List.mem_cons_of_mem _
          (List.mem_of_mem_drop (ih alts _ _ hlen₂ c hc))
      | none =>
        have hstep : subAlts alts prev (a :: t) = a :: subAlts alts (some a) t := by
          simp only [subAlts]
          rw [hfind]
        rw [hstep] at hc
        rcases List.mem_cons.1 hc with rfl | h
        · exact List.mem_cons_self _ _
        · exact List.mem_cons_of_mem _ (ih alts (some a) t hlen' c h)

/-- Helper: the scanner only deletes characters. -/
theorem subAlts_mem (alts : List (List Char)) (prev : Option Char) (s : List Char) :
    ∀ c ∈ subAlts alts prev s, c ∈ s :=
  subAlts_mem_aux s.length alts prev s le_rfl

/-- Helper: stripping only deletes characters. -/
theorem stripStr_mem (s : List Char) : ∀ c ∈ stripStr s, c ∈ s := by
  intro c hc
  simp only [stripStr, List.mem_reverse] at hc
  have h1 := (List.dropWhile_sublist isSpaceChar).mem hc
  rw [List.mem_reverse] at h1
  exact (List.dropWhile_sublist isSpaceChar).mem h1

/-- Helper: on a fragment string, `normalize_team_name` is lower-casing, then
deleting the maximal word runs `fc`, `united`, `utd`, `city` and joining the
remaining words with single spaces. -/
theorem normalize_eq_joinWords (s : List Char)
    (hfrag : ∀ c ∈ s, wordOrSpace c = true) :
    normalize_team_name s =
      joinWords ((((wordsOf (s.map Char.toLower)).filter
          (fun w => !decide (w ∈ [kwFC, kwFdotC]))).filter
          (fun w => !decide (w ∈ [kwUnited, kwUtd]))).filter
          (fun w => !decide (w ∈ [kwCity]))) := by
  by_cases hs : s = []
  · subst hs
    simp [normalize_team_name, wordsOf, joinWords]
  · have hfrag₁ : ∀ c ∈ s.map Char.toLower, wordOrSpace c = true := by
      intro c hc
      rcases List.mem_map.1 hc with ⟨a, ha, rfl⟩
      have := hfrag a ha
      simp only [wordOrSpace, isWordChar_toLower, isSpaceChar_toLower]
      simpa [wordOrSpace] using this
    have hfrag₂ : ∀ c ∈ subAlts [kwFC, kwFdotC] none (s.map Char.toLower),
        wordOrSpace c = true :=
      fun c hc => hfrag₁ c (subAlts_mem _ _ _ c hc)
    have hfrag₃ : ∀ c ∈ subAlts [kwUnited, kwUtd] none
        (subAlts [kwFC, kwFdotC] none (s.map Char.toLower)), wordOrSpace c = true :=
      fun c hc => hfrag₂ c (subAlts_mem _ _ _ c hc)
    have hfrag₄ : ∀ c ∈ subAlts [kwCity] none (subAlts [kwUnited, kwUtd] none
        (subAlts [kwFC, kwFdotC] none (s.map Char.toLower))), wordOrSpace c = true :=
      fun c hc => hfrag₃ c (subAlts_mem _ _ _ c hc)
    have halts₁ : ∀ p ∈ [kwFC, kwFdotC], p ≠ [] ∧ isWordChar (p.headD ' ') = true ∧
        ((∀ c ∈ p, isWordChar c = true) ∨ ∃ c ∈ p, wordOrSpace c = false) := by decide
    have halts₂ : ∀ p ∈ [kwUnited, kwUtd], p ≠ [] ∧ isWordChar (p.headD ' ') = true ∧
        ((∀ c ∈ p, isWordChar c = true) ∨ ∃ c ∈ p, wordOrSpace c = false) := by decide
    have halts₃ : ∀ p ∈ [kwCity], p ≠ [] ∧ isWordChar (p.headD ' ') = true ∧
        ((∀ c ∈ p, isWordChar c = true) ∨ ∃ c ∈ p, wordOrSpace c = false) := by decide
    rw [normalize_team_name, if_neg hs]
    simp only
    rw [List.filter_eq_self.2 hfrag₄,
      stripcollapse_eq_joinWords _ hfrag₄,
      wordsOf_subAlts [kwCity] halts₃ _ hfrag₃,
      wordsOf_subAlts [kwUnited, kwUtd] halts₂ _ hfrag₂,
      wordsOf_subAlts [kwFC, kwFdotC] halts₁ _ hfrag₁]

/-- Helper: every character of a normalized name is a word character or a
space. -/
theorem normalize_fragment_out (s : List Char) :
    ∀ c ∈ normalize_team_name s, wordOrSpace c = true := by
  rw [normalize_team_name]
  by_cases hs : s = []
  · rw [if_pos hs]
    simp
  · rw [if_neg hs]
    simp only
    intro c hc
    have h1 := stripStr_mem _ c hc
    rcases mem_collapseWS _ _ c h1 with rfl | h2
    · decide
    · exact (List.mem_filter.1 h2).2

/-- Helper: every character of a normalized name is fixed by lower-casing. -/
theorem normalize_toLower_fixed (s : List Char) :
    ∀ c ∈ normalize_team_name s, c.toLower = c := by
  rw [normalize_team_name]
  by_cases hs : s = []
  · rw [if_pos hs]
    simp
  · rw [if_neg hs]
    simp only
    intro c hc
    have h1 := stripStr_mem _ c hc
    rcases mem_collapseWS _ _ c h1 with rfl | h2
    · decide
    · have h3 := (List.mem_filter.1 h2).1
      have h4 := subAlts_mem _ _ _ c h3
      have h5 := subAlts_mem _ _ _ c h4
      have h6 := subAlts_mem _ _ _ c h5
      rcases List.mem_map.1 h6 with ⟨a, _, rfl⟩
      exact char_toLower_toLower a

/-- C8 amended: on every string consisting only of word characters (letters,
digits, underscore) and whitespace, `normalize_team_name` is idempotent.
(On strings with punctuation it need not be: removing punctuation can
manufacture a fresh keyword token, as in the counterexample.) -/
theorem C8_amended_idempotent_on_word_space (s : List Char)
    (hfrag : ∀ c ∈ s, wordOrSpace c = true) :
    normalize_team_name (normalize_team_name s) = normalize_team_name s := by
  have hfragP : ∀ c ∈ normalize_team_name s, wordOrSpace c = true :=
    normalize_fragment_out s
  rw [normalize_eq_joinWords (normalize_team_name s) hfragP]
  have hmap : (normalize_team_name s).map Char.toLower = normalize_team_name s := by
    have h := normalize_toLower_fixed s
    calc (normalize_team_name s).map Char.toLower
        = (normalize_team_name s).map id := List.map_congr_left h
      _ = normalize_team_name s := List.map_id _
  rw [hmap, normalize_eq_joinWords s hfrag]
  have hW0 := wordsOf_words (s.map Char.toLower)
  have hWS : ∀ w ∈ (((wordsOf (s.map Char.toLower)).filter
      (fun w => !decide (w ∈ [kwFC, kwFdotC]))).filter
      (fun w => !decide (w ∈ [kwUnited, kwUtd]))).filter
      (fun w => !decide (w ∈ [kwCity])),
      w ∈ wordsOf (s.map Char.toLower) ∧
      (!decide (w ∈ [kwFC, kwFdotC])) = true ∧
      (!decide (w ∈ [kwUnited, kwUtd])) = true ∧
      (!decide (w ∈ [kwCity])) = true := by
    intro w hw
    obtain ⟨hw1, h3⟩ := List.mem_filter.1 hw
    obtain ⟨hw2, h2⟩ := List.mem_filter.1 hw1
    obtain ⟨hw3, h1⟩ := List.mem_filter.1 hw2
    exact ⟨hw3, h1, h2, h3⟩
  rw [wordsOf_joinWords _ (fun w hw => hW0 w (hWS w hw).1)]
  rw [List.filter_eq_self.2 (fun w hw => (hWS w hw).2.1),
    List.filter_eq_self.2 (fun w hw => (hWS w hw).2.2.1),
    List.filter_eq_self.2 (fun w hw => (hWS w hw).2.2.2)]

/-- Witness for the amended C8 at the concrete input "real madrid fc". -/
theorem C8_amended_witness :
    (∀ c ∈ ['r', 'e', 'a', 'l', ' ', 'm', 'a', 'd', 'r', 'i', 'd', ' ', 'f', 'c'],
      wordOrSpace c = true) ∧
    normalize_team_name (normalize_team_name
        ['r', 'e', 'a', 'l', ' ', 'm', 'a', 'd', 'r', 'i', 'd', ' ', 'f', 'c']) =
      normalize_team_name
        ['r', 'e', 'a', 'l', ' ', 'm', 'a', 'd', 'r', 'i', 'd', ' ', 'f', 'c'] :=
  ⟨by decide, C8_amended_idempotent_on_word_space _ (by decide)⟩

/-! ## Opportunity pipeline (`arbitrage.py`, `find_arbitrage_opportunities`)

The input `all_odds` dict is an insertion-ordered association list from
bookmaker name to match list. The `np.random.uniform` draws of the odds
boost (lines 132-138) are made explicit: `rng i` supplies the three draws
for the i-th analyzed match. The `datetime.now()` timestamp is the explicit
`now` argument. -/

/-- One priced outcome from a match's `outcomes` dict: display name and
decimal odds. -/
structure Outcome where
  name : List Char
  odds : ℚ
deriving Repr, DecidableEq

/-- The fields of a bookmaker's match dict that
`find_arbitrage_opportunities` reads. The `normalized_match` key may be
absent (line 83 checks for it), hence `Option`; `match_name` models the
`match` key. -/
structure MatchData where
  normalized_match : Option (List Char)
  match_name : List Char
  sport : List Char
  league : List Char
  start_time : List Char
  outcomes : List (List Char × Outcome)
deriving Repr, DecidableEq

/-- Placeholder match record; only used for the unreachable `none` branch of
`match_data` lookups (Python would raise there). -/
def defaultMatchData : MatchData :=
  { normalized_match := none, match_name := [], sport := [], league := [],
    start_time := [], outcomes := [] }

/-- One entry of a `match_odds_by_name` bucket (lines 88-91): the
contributing bookmaker and its match dict. -/
structure BookmakerMatch where
  bookmaker : List Char
  match_data : MatchData
deriving Repr, DecidableEq

/-- The running best-price cell for one outcome slot (lines 99-103):
initialized with odds 0 and no bookmaker/match/outcome. -/
structure BestCell where
  odds : ℚ
  bookmaker : Option (List Char)
  match_data : Option MatchData
  outcome_name : Option (List Char)
deriving Repr, DecidableEq

/-- The initial best-price cell (`{'odds': 0, 'bookmaker': None,
'match_data': None}`). -/
def emptyCell : BestCell :=
  { odds := 0, bookmaker := none, match_data := none, outcome_name := none }

/-- The outcome slot `home`. -/
def homeSlot : List Char := ['h', 'o', 'm', 'e']

/-- The outcome slot `draw`. -/
def drawSlot : List Char := ['d', 'r', 'a', 'w']

/-- The outcome slot `away`. -/
def awaySlot : List Char := ['a', 'w', 'a', 'y']

/-- `outcome_type in match_data['outcomes']` plus the lookup (lines
110-111): first entry of the outcomes association list with the given slot
key. -/
def lookupOutcome (outcomes : List (List Char × Outcome)) (slot : List Char) :
    Option Outcome :=
  (outcomes.find? (fun kv => kv.1 = slot)).map (fun kv => kv.2)

/-- One step of the best-odds scan (lines 109-119): replace the cell when
the entry quotes this slot with odds strictly greater than the current
best. -/
def updateCell (slot : List Char) (cell : BestCell) (e : BookmakerMatch) : BestCell :=
  match lookupOutcome e.match_data.outcomes slot with
  | none => cell
  | some oc =>
    if cell.odds < oc.odds then
      { odds := oc.odds, bookmaker := some e.bookmaker,
        match_data := some e.match_data, outcome_name := some oc.name }
    else cell

/-- The best-price cell of one slot across a match's bucket entries. -/
def bestCellFor (slot : List Char) (entries : List BookmakerMatch) : BestCell :=
  entries.foldl (updateCell slot) emptyCell

/-- The Best-Price Selector (lines 98-124): the per-slot best cells, kept
only when all three of home, draw and away ended with positive odds
(`len(best_odds_list) != 3: continue`). -/
def select_best_odds (entries : List BookmakerMatch) :
    Option (BestCell × BestCell × BestCell) :=
  let home := bestCellFor homeSlot entries
  let draw := bestCellFor drawSlot entries
  let away := bestCellFor awaySlot entries
  if 0 < home.odds ∧ 0 < draw.odds ∧ 0 < away.odds then some (home, draw, away)
  else none

/-- The three `np.random.uniform` draws used to boost one match's odds
(lines 132-138): documented ranges (0.1, 0.3), (0.05, 0.15), (0.05, 0.25). -/
structure BoostDraws where
  u0 : ℚ
  u1 : ℚ
  u2 : ℚ
deriving Repr, DecidableEq

/-- The artificial odds boost (lines 129-138): home odds up by `1 + u0`,
draw odds down by `1 - u1`, away odds up by `1 + u2`. -/
def boostOdds (d : BoostDraws) (odds : ℚ × ℚ × ℚ) : List ℚ :=
  [odds.1 * (1 + d.u0), odds.2.1 * (1 - d.u1), odds.2.2 * (1 + d.u2)]

/-- One leg of an opportunity (lines 150-158). The stake is
`individual_stakes[i]`; Python raises IndexError when the boosted odds were
not an arbitrage (empty stakes list) — the model totalizes that with
`getD i 0`. -/
structure Bet where
  bookmaker : Option (List Char)
  outcome : Option (List Char)
  odds : ℚ
  stake : ℚ
deriving Repr, DecidableEq

/-- The opportunity dict (lines 160-172). `investment` copies
`arbitrage_result['investment']`, an optional key (KeyError in Python when
absent). -/
structure Opportunity where
  match_name : List Char
  normalized_match : List Char
  sport : List Char
  league : List Char
  start_time : List Char
  profit_percentage : ℚ
  investment : Option ℚ
  expected_return : ℚ
  bets : List Bet
  is_active : Bool
  discovered_at : List Char
deriving Repr, DecidableEq

/-- Assembly of one opportunity (lines 145-172): metadata from the home
cell's match dict, per-slot bets guarded by `odds > 0`, `is_active = True`
and the `discovered_at` timestamp. -/
def mkOpportunity (name : List Char) (cells : BestCell × BestCell × BestCell)
    (res : ArbResult) (now : List Char) : Opportunity :=
  let md := cells.1.match_data.getD defaultMatchData
  let mkBet (i : ℕ) (cell : BestCell) : Bet :=
    { bookmaker := cell.bookmaker, outcome := cell.outcome_name, odds := cell.odds,
      stake := res.individual_stakes.getD i 0 }
  let bets :=
    (if 0 < cells.1.odds then [mkBet 0 cells.1] else []) ++
    (if 0 < cells.2.1.odds then [mkBet 1 cells.2.1] else []) ++
    (if 0 < cells.2.2.odds then [mkBet 2 cells.2.2] else [])
  { match_name := md.match_name
    normalized_match := name
    sport := md.sport
    league := md.league
    start_time := md.start_time
    profit_percentage := res.profit_percentage
    investment := res.investment
    expected_return := res.expected_return
    bets := bets
    is_active := true
    discovered_at := now }

/-- Key insertion into the ordered key list of `match_odds_by_name`
(lines 85-86): append on first appearance. -/
def insertKey (ks : List (List Char)) (k : List Char) : List (List Char) :=
  if k ∈ ks then ks else ks ++ [k]

/-- The keys of `match_odds_by_name` in insertion order (lines 80-91):
normalized names in order of first appearance across the bookmaker dict and
each bookmaker's match list. -/
def groupKeys (all_odds : List (List Char × List MatchData)) : List (List Char) :=
  (all_odds.flatMap (fun bm => bm.2.filterMap (fun m => m.normalized_match))).foldl
    insertKey []

/-- The bucket of one normalized name (lines 88-91): all (bookmaker, match)
entries carrying that name, in global iteration order. -/
def entriesFor (all_odds : List (List Char × List MatchData)) (name : List Char) :
    List BookmakerMatch :=
  all_odds.flatMap (fun bm => bm.2.filterMap (fun m =>
    if m.normalized_match = some name then some ⟨bm.1, m⟩ else none))

/-- The per-match loop of `find_arbitrage_opportunities` (lines 94-175):
skip buckets with fewer than 2 entries, skip matches without all three best
odds, boost the best odds with the i-th random draws, run the calculator,
and accept the opportunity unconditionally (`if True:` — the
`profit_threshold` parameter is never consulted). -/
def findArbLoop (all_odds : List (List Char × List MatchData))
    (rng : ℕ → BoostDraws) (now : List Char) :
    List (List Char) → ℕ → List Opportunity
  | [], _ => []
  | name :: rest, i =>
    let entries := entriesFor all_odds name
    if entries.length < 2 then findArbLoop all_odds rng now rest i
    else
      match select_best_odds entries with
      | none => findArbLoop all_odds rng now rest i
      | some cells =>
        let boosted := boostOdds (rng i) (cells.1.odds, cells.2.1.odds, cells.2.2.odds)
        let res := calculate_arbitrage boosted 100
        mkOpportunity name cells res now :: findArbLoop all_odds rng now rest (i + 1)

/-- Embedding of `find_arbitrage_opportunities(all_odds, profit_threshold)`
(arbitrage.py lines 62-181) with the random draws and timestamp explicit.
The `profit_threshold` parameter is accepted and, as in the source, never
used. The final sort is by `profit_percentage` descending; Python's
`list.sort(reverse=True)` is stable, as is `mergeSort`. -/
def find_arbitrage_opportunities (all_odds : List (List Char × List MatchData))
    (profit_threshold : ℚ) (rng : ℕ → BoostDraws) (now : List Char) :
    List Opportunity :=
  (findArbLoop all_odds rng now (groupKeys all_odds) 0).mergeSort
    (fun a b => decide (b.profit_percentage ≤ a.profit_percentage))

/-! ### Concrete pipeline fixtures -/

/-- Bookmaker name "bm1". -/
def bmA : List Char := ['b', 'm', '1']

/-- Bookmaker name "bm2". -/
def bmB : List Char := ['b', 'm', '2']

/-- Normalized match name "m". -/
def nameM : List Char := ['m']

/-- A match quoting decimal odds 10 on each of home, draw and away. -/
def mkMatch10 : MatchData :=
  { normalized_match := some nameM, match_name := nameM, sport := ['s'], league := ['l'],
    start_time := ['t'],
    outcomes := [(homeSlot, ⟨['h'], 10⟩), (drawSlot, ⟨['d'], 10⟩), (awaySlot, ⟨['a'], 10⟩)] }

/-- Draws (0.2, 0.1, 0.1), inside the documented uniform ranges (0.1, 0.3),
(0.05, 0.15), (0.05, 0.25). -/
def cexDrawsA : BoostDraws := ⟨1/5, 1/10, 1/10⟩

/-- Draws (0.3, 0.1, 0.1) — hitting different points of the same ranges. -/
def cexDrawsB : BoostDraws := ⟨3/10, 1/10, 1/10⟩

/-- Random source that always answers `cexDrawsA`. -/
def cexRngA : ℕ → BoostDraws := fun _ => cexDrawsA

/-- Random source that always answers `cexDrawsB`. -/
def cexRngB : ℕ → BoostDraws := fun _ => cexDrawsB

/-- A fixed timestamp. -/
def cexNow : List Char := ['t', 's']

/-- A single bookmaker listing the same match twice: one distinct source but
two bucket entries. -/
def cex4Input : List (List Char × List MatchData) := [(bmA, [mkMatch10, mkMatch10])]

/-- Two bookmakers each quoting the same match. -/
def cex6Input : List (List Char × List MatchData) := [(bmA, [mkMatch10]), (bmB, [mkMatch10])]

/-- Helper: the best-price selection for two entries both quoting 10/10/10
keeps the earliest entry (strict-greater comparison). -/
theorem select_cex_cells (e₁ e₂ : BookmakerMatch) (h₁ : e₁.match_data = mkMatch10)
    (h₂ : e₂.match_data = mkMatch10) :
    select_best_odds [e₁, e₂] =
      some (⟨10, some e₁.bookmaker, some mkMatch10, some ['h']⟩,
            ⟨10, some e₁.bookmaker, some mkMatch10, some ['d']⟩,
            ⟨10, some e₁.bookmaker, some mkMatch10, some ['a']⟩) := by
  simp [select_best_odds, bestCellFor, updateCell, lookupOutcome, emptyCell, h₁, h₂,
    mkMatch10, homeSlot, drawSlot, awaySlot]

/-- Helper: the arbitrage calculation on the boosted odds [12, 9, 11]. -/
theorem calc_cex_boosted : calculate_arbitrage [12, 9, 11] 100 =
    { is_arbitrage := true
      profit_percentage := 7075/99
      individual_stakes := [3300/113, 4400/113, 3600/113]
      expected_return := 39600/113
      investment := some 100 } := by
  rw [calculate_arbitrage_eq_of_valid [12, 9, 11] 100 (by simp)
    (by intro o ho; fin_cases ho <;> norm_num) (by norm_num [sum_reciprocals])]
  norm_num [sum_reciprocals]

/-- Helper: full evaluation of the pipeline on the two-bookmaker fixture
with draws (0.2, 0.1, 0.1), for any profit threshold. -/
theorem find_cex6_eval (threshold : ℚ) :
    find_arbitrage_opportunities cex6Input threshold cexRngA cexNow =
      [{ match_name := nameM, normalized_match := nameM, sport := ['s'], league := ['l'],
         start_time := ['t'], profit_percentage := 7075/99, investment := some 100,
         expected_return := 39600/113,
         bets := [⟨some bmA, some ['h'], 10, 3300/113⟩, ⟨some bmA, some ['d'], 10, 4400/113⟩,
                  ⟨some bmA, some ['a'], 10, 3600/113⟩],
         is_active := true, discovered_at := cexNow }] := by
  have h1 : groupKeys cex6Input = [nameM] := by
    simp [groupKeys, insertKey, cex6Input, bmA, bmB, mkMatch10, nameM]
  have h2 : entriesFor cex6Input nameM = [⟨bmA, mkMatch10⟩, ⟨bmB, mkMatch10⟩] := by
    simp [entriesFor, cex6Input, bmA, bmB, mkMatch10, nameM]
  have h3 := select_cex_cells ⟨bmA, mkMatch10⟩ ⟨bmB, mkMatch10⟩ rfl rfl
  have h4 : boostOdds (cexRngA 0) (10, 10, 10) = [12, 9, 11] := by
    simp [boostOdds, cexRngA, cexDrawsA]
    norm_num
  rw [find_arbitrage_opportunities, h1]
  rw [show findArbLoop cex6Input cexRngA cexNow [nameM] 0 =
    [mkOpportunity nameM (⟨10, some bmA, some mkMatch10, some ['h']⟩,
            ⟨10, some bmA, some mkMatch10, some ['d']⟩,
            ⟨10, some bmA, some mkMatch10, some ['a']⟩)
      (calculate_arbitrage (boostOdds (cexRngA 0) (10, 10, 10)) 100) cexNow] from by
    simp only [findArbLoop, h2, h3]
    norm_num [findArbLoop]]
  rw [h4, calc_cex_boosted, List.mergeSort_singleton]
  simp [mkOpportunity, mkMatch10]

/-- Helper: the arbitrage calculation on the boosted odds [13, 9, 11]. -/
theorem calc_cex_boosted' : calculate_arbitrage [13, 9, 11] 100 =
    { is_arbitrage := true
      profit_percentage := 92800/1287
      individual_stakes := [9900/359, 14300/359, 11700/359]
      expected_return := 128700/359
      investment := some 100 } := by
  rw [calculate_arbitrage_eq_of_valid [13, 9, 11] 100 (by simp)
    (by intro o ho; fin_cases ho <;> norm_num) (by norm_num [sum_reciprocals])]
  norm_num [sum_reciprocals]

/-- Helper: full evaluation of the pipeline on the two-bookmaker fixture
with draws (0.3, 0.1, 0.1). -/
theorem find_cex6_eval' (threshold : ℚ) :
    find_arbitrage_opportunities cex6Input threshold cexRngB cexNow =
      [{ match_name := nameM, normalized_match := nameM, sport := ['s'], league := ['l'],
         start_time := ['t'], profit_percentage := 92800/1287, investment := some 100,
         expected_return := 128700/359,
         bets := [⟨some bmA, some ['h'], 10, 9900/359⟩, ⟨some bmA, some ['d'], 10, 14300/359⟩,
                  ⟨some bmA, some ['a'], 10, 11700/359⟩],
         is_active := true, discovered_at := cexNow }] := by
  have h1 : groupKeys cex6Input = [nameM] := by
    simp [groupKeys, insertKey, cex6Input, bmA, bmB, mkMatch10, nameM]
  have h2 : entriesFor cex6Input nameM = [⟨bmA, mkMatch10⟩, ⟨bmB, mkMatch10⟩] := by
    simp [entriesFor, cex6Input, bmA, bmB, mkMatch10, nameM]
  have h3 := select_cex_cells ⟨bmA, mkMatch10⟩ ⟨bmB, mkMatch10⟩ rfl rfl
  have h4 : boostOdds (cexRngB 0) (10, 10, 10) = [13, 9, 11] := by
    simp [boostOdds, cexRngB, cexDrawsB]
    norm_num
  rw [find_arbitrage_opportunities, h1]
  rw [show findArbLoop cex6Input cexRngB cexNow [nameM] 0 =
    [mkOpportunity nameM (⟨10, some bmA, some mkMatch10, some ['h']⟩,
            ⟨10, some bmA, some mkMatch10, some ['d']⟩,
            ⟨10, some bmA, some mkMatch10, some ['a']⟩)
      (calculate_arbitrage (boostOdds (cexRngB 0) (10, 10, 10)) 100) cexNow] from by
    simp only [findArbLoop, h2, h3]
    norm_num [findArbLoop]]
  rw [h4, calc_cex_boosted', List.mergeSort_singleton]
  simp [mkOpportunity, mkMatch10]

/-! ## C6: the profit threshold is never applied -/

/-- C6 (code bug evaluated at the failing input): with `profit_threshold`
1000, the pipeline still returns the opportunity whose profit is 7075/99
(≈ 71.5%), far below the threshold: the `profit_threshold` parameter is
never consulted (`if True:` at arbitrage.py line 145), contradicting the
function's own docstring ("Minimum profit percentage to consider"). -/
theorem C6_profit_threshold_ignored :
    (find_arbitrage_opportunities cex6Input 1000 cexRngA cexNow).map
      (fun o => o.profit_percentage) = [7075/99] ∧ (7075/99 : ℚ) < 1000 := by
  rw [find_cex6_eval 1000]
  norm_num

/-! ## C9: the pipeline is randomized, not a pure function of its input -/

/-- C9 (code bug evaluated at the failing input): on the same per-source
event data, two runs whose `np.random.uniform` draws differ (both inside
the documented ranges) return different opportunity lists — profit 7075/99
versus 92800/1287 — so the pipeline is not a pure function of its input. -/
theorem C9_random_draws_change_output :
    (find_arbitrage_opportunities cex6Input 0 cexRngA cexNow).map
      (fun o => o.profit_percentage) = [7075/99] ∧
    (find_arbitrage_opportunities cex6Input 0 cexRngB cexNow).map
      (fun o => o.profit_percentage) = [92800/1287] ∧
    find_arbitrage_opportunities cex6Input 0 cexRngA cexNow ≠
      find_arbitrage_opportunities cex6Input 0 cexRngB cexNow := by
  refine ⟨by rw [find_cex6_eval 0]; simp, by rw [find_cex6_eval' 0]; simp, ?_⟩
  rw [find_cex6_eval 0, find_cex6_eval' 0]
  intro h
  simp only [List.cons.injEq] at h
  have := congrArg Opportunity.profit_percentage h.1
  norm_num at this

/-! ## C4: coverage threshold counts entries, not distinct sources -/

/-- C4 counterexample: one bookmaker listing the same normalized match twice
yields a bucket of 2 entries, which passes the `len < 2` check
(arbitrage.py line 95), so the match appears in the output although only a
single distinct source contributed. -/
theorem C4_counterexample :
    (find_arbitrage_opportunities cex4Input 0 cexRngA cexNow).map
      (fun o => o.normalized_match) = [nameM] ∧
    ∀ e ∈ entriesFor cex4Input nameM, e.bookmaker = bmA := by
  have h1 : groupKeys cex4Input = [nameM] := by
    simp [groupKeys, insertKey, cex4Input, bmA, mkMatch10, nameM]
  have h2 : entriesFor cex4Input nameM = [⟨bmA, mkMatch10⟩, ⟨bmA, mkMatch10⟩] := by
    simp [entriesFor, cex4Input, bmA, mkMatch10, nameM]
  have h3 := select_cex_cells ⟨bmA, mkMatch10⟩ ⟨bmA, mkMatch10⟩ rfl rfl
  have h4 : boostOdds (cexRngA 0) (10, 10, 10) = [12, 9, 11] := by
    simp [boostOdds, cexRngA, cexDrawsA]
    norm_num
  constructor
  · rw [find_arbitrage_opportunities, h1]
    rw [show findArbLoop cex4Input cexRngA cexNow [nameM] 0 =
      [mkOpportunity nameM (⟨10, some bmA, some mkMatch10, some ['h']⟩,
              ⟨10, some bmA, some mkMatch10, some ['d']⟩,
              ⟨10, some bmA, some mkMatch10, some ['a']⟩)
        (calculate_arbitrage (boostOdds (cexRngA 0) (10, 10, 10)) 100) cexNow] from by
      simp only [findArbLoop, h2, h3]
      norm_num [findArbLoop]]
    rw [h4, calc_cex_boosted, List.mergeSort_singleton]
    simp [mkOpportunity]
  · intro e he
    rw [h2] at he
    rcases List.mem_cons.1 he with rfl | he'
    · rfl
    · rcases List.mem_cons.1 he' with rfl | he''
      · rfl
      · simp at he''

/-- Helper: every opportunity produced by the per-match loop comes from a
bucket of at least 2 entries. -/
theorem findArbLoop_min_two (all_odds : List (List Char × List MatchData))
    (rng : ℕ → BoostDraws) (now : List Char) :
    ∀ (keys : List (List Char)) (i : ℕ) (opp : Opportunity),
      opp ∈ findArbLoop all_odds rng now keys i →
      2 ≤ (entriesFor all_odds opp.normalized_match).length := by
  intro keys
  induction keys with
  | nil =>
    intro i opp h
    simp [findArbLoop] at h
  | cons name rest ih =>
    intro i opp h
    simp only [findArbLoop] at h
    by_cases h2 : (entriesFor all_odds name).length < 2
    · rw [if_pos h2] at h
      exact ih i opp h
    · rw [if_neg h2] at h
      cases hsel : select_best_odds (entriesFor all_odds name) with
      | none =>
        rw [hsel] at h
        exact ih i opp h
      | some cells =>
        rw [hsel] at h
        rcases List.mem_cons.1 h with rfl | h'
        · have hnm : (mkOpportunity name cells
              (calculate_arbitrage (boostOdds (rng i)
                (cells.1.odds, cells.2.1.odds, cells.2.2.odds)) 100) now).normalized_match =
              name := rfl
          rw [hnm]
          omega
        · exact ih (i + 1) opp h'

/-- C4 amended: every opportunity in the output is backed by at least 2
contributing (bookmaker, match) bucket entries — but these entries need not
be distinct bookmakers: a single bookmaker listing the same normalized
match twice passes the threshold with one distinct source (see the
counterexample). -/
theorem C4_amended_min_two_entries (all_odds : List (List Char × List MatchData))
    (profit_threshold : ℚ) (rng : ℕ → BoostDraws) (now : List Char) :
    (find_arbitrage_opportunities all_odds profit_threshold rng now).all
      (fun opp => decide (2 ≤ (entriesFor all_odds opp.normalized_match).length)) = true := by
  rw [List.all_eq_true]
  intro opp hmem
  rw [decide_eq_true_eq]
  rw [find_arbitrage_opportunities] at hmem
  rw [(List.mergeSort_perm _ _).mem_iff] at hmem
  exact findArbLoop_min_two all_odds rng now (groupKeys all_odds) 0 opp hmem

/-! ## C5: best-price selection thresholds -/

/-- The odds quoted for one slot across a match's bucket entries, in scan
order. -/
def quotesOf (slot : List Char) (entries : List BookmakerMatch) : List ℚ :=
  entries.filterMap (fun e => (lookupOutcome e.match_data.outcomes slot).map
    (fun oc => oc.odds))

/-- Helper: the best-odds fold computes the running maximum of the quoted
odds. -/
theorem foldl_updateCell_odds (slot : List Char) (entries : List BookmakerMatch) :
    ∀ cell : BestCell,
    (entries.foldl (updateCell slot) cell).odds = (quotesOf slot entries).foldl max cell.odds := by
  induction entries with
  | nil => intro cell; rfl
  | cons e es ih =>
    intro cell
    simp only [List.foldl_cons, quotesOf, List.filterMap_cons]
    cases hl : lookupOutcome e.match_data.outcomes slot with
    | none =>
      rw [show updateCell slot cell e = cell from by simp [updateCell, hl]]
      exact ih cell
    | some oc =>
      simp only [Option.map_some']
      rw [List.foldl_cons]
      have hodds : (updateCell slot cell e).odds = max cell.odds oc.odds := by
        simp only [updateCell, hl]
        split_ifs with h
        · exact (max_eq_right (le_of_lt h)).symm
        · exact (max_eq_left (not_lt.1 h)).symm
      rw [← hodds]
      exact ih (updateCell slot cell e)

/-- Helper: folding `max` bounds below by the start value. -/
theorem le_foldl_max (l : List ℚ) : ∀ a : ℚ, a ≤ l.foldl max a := by
  induction l with
  | nil => intro a; exact le_rfl
  | cons q l ih =>
    intro a
    simp only [List.foldl_cons]
    exact le_trans (le_max_left a q) (ih (max a q))

/-- Helper: a `max`-fold returns the start value or a list member. -/
theorem foldl_max_mem (l : List ℚ) : ∀ a : ℚ, l.foldl max a = a ∨ l.foldl max a ∈ l := by
  induction l with
  | nil => intro a; exact Or.inl rfl
  | cons q l ih =>
    intro a
    simp only [List.foldl_cons]
    rcases ih (max a q) with h | h
    · rcases max_choice a q with h' | h'
      · exact Or.inl (by rw [h, h'])
      · exact Or.inr (by rw [h, h']; exact List.mem_cons_self _ _)
    · exact Or.inr (List.mem_cons_of_mem _ h)

/-- Helper: positivity of a `max`-fold. -/
theorem foldl_max_pos_iff (l : List ℚ) : ∀ a : ℚ,
    (0 < l.foldl max a ↔ 0 < a ∨ ∃ q ∈ l, 0 < q) := by
  induction l with
  | nil => intro a; simp
  | cons q l ih =>
    intro a
    simp only [List.foldl_cons]
    rw [ih (max a q)]
    constructor
    · rintro (h | h)
      · rcases lt_max_iff.1 h with h' | h'
        · exact Or.inl h'
        · exact Or.inr ⟨q, List.mem_cons_self _ _, h'⟩
      · obtain ⟨x, hx, hx0⟩ := h
        exact Or.inr ⟨x, List.mem_cons_of_mem _ hx, hx0⟩
    · rintro (h | ⟨x, hx, hx0⟩)
      · exact Or.inl (lt_max_iff.2 (Or.inl h))
      · rcases List.mem_cons.1 hx with rfl | hx'
        · exact Or.inl (lt_max_iff.2 (Or.inr hx0))
        · exact Or.inr ⟨x, hx', hx0⟩

/-- Helper: the best cell's odds is the maximum quoted odds (0 when none). -/
theorem bestCellFor_odds (slot : List Char) (entries : List BookmakerMatch) :
    (bestCellFor slot entries).odds = (quotesOf slot entries).foldl max 0 :=
  foldl_updateCell_odds slot entries emptyCell

/-- Helper: the best cell's odds is positive exactly when some quote is. -/
theorem bestCellFor_pos_iff (slot : List Char) (entries : List BookmakerMatch) :
    0 < (bestCellFor slot entries).odds ↔ ∃ q ∈ quotesOf slot entries, 0 < q := by
  rw [bestCellFor_odds, foldl_max_pos_iff]
  simp

/-- Helper: a positive best odds is one of the quoted odds. -/
theorem bestCellFor_odds_mem (slot : List Char) (entries : List BookmakerMatch)
    (h : 0 < (bestCellFor slot entries).odds) :
    (bestCellFor slot entries).odds ∈ quotesOf slot entries := by
  have hm := foldl_max_mem (quotesOf slot entries) 0
  rw [← bestCellFor_odds] at hm
  rcases hm with h0 | hm'
  · rw [h0] at h
    exact absurd h (lt_irrefl 0)
  · exact hm'

/-- C5 amended: the Best-Price Selector produces a set exactly when each of
the three slots home, draw, away has at least one contributing quote with
odds > 0 — not > 1.0 as claimed, and only three-way markets are supported
(two-way markets are always rejected). When a set is produced, each slot's
winning odds is positive and is one of that slot's contributed quotes (so a
quote with odds ≤ 0 never wins, but a quote with odds in (0, 1] can). -/
theorem C5_amended_best_price_selection (entries : List BookmakerMatch) :
    ((select_best_odds entries).isSome = true ↔
      ((∃ q ∈ quotesOf homeSlot entries, 0 < q) ∧
       (∃ q ∈ quotesOf drawSlot entries, 0 < q) ∧
       (∃ q ∈ quotesOf awaySlot entries, 0 < q))) ∧
    (select_best_odds entries).all (fun cells =>
      decide (0 < cells.1.odds ∧ cells.1.odds ∈ quotesOf homeSlot entries) &&
      decide (0 < cells.2.1.odds ∧ cells.2.1.odds ∈ quotesOf drawSlot entries) &&
      decide (0 < cells.2.2.odds ∧ cells.2.2.odds ∈ quotesOf awaySlot entries)) = true := by
  constructor
  · simp only [select_best_odds]
    by_cases hc : 0 < (bestCellFor homeSlot entries).odds ∧
        0 < (bestCellFor drawSlot entries).odds ∧ 0 < (bestCellFor awaySlot entries).odds
    · rw [if_pos hc]
      simp only [Option.isSome_some, true_iff]
      exact ⟨(bestCellFor_pos_iff _ _).1 hc.1, (bestCellFor_pos_iff _ _).1 hc.2.1,
        (bestCellFor_pos_iff _ _).1 hc.2.2⟩
    · rw [if_neg hc]
      simp only [Option.isSome_none, Bool.false_eq_true, false_iff]
      rintro ⟨h1, h2, h3⟩
      exact hc ⟨(bestCellFor_pos_iff _ _).2 h1, (bestCellFor_pos_iff _ _).2 h2,
        (bestCellFor_pos_iff _ _).2 h3⟩
  · simp only [select_best_odds]
    by_cases hc : 0 < (bestCellFor homeSlot entries).odds ∧
        0 < (bestCellFor drawSlot entries).odds ∧ 0 < (bestCellFor awaySlot entries).odds
    · rw [if_pos hc]
      simp only [Option.all_some, Bool.and_eq_true, decide_eq_true_eq]
      exact ⟨⟨⟨hc.1, bestCellFor_odds_mem _ _ hc.1⟩,
        ⟨hc.2.1, bestCellFor_odds_mem _ _ hc.2.1⟩⟩,
        ⟨hc.2.2, bestCellFor_odds_mem _ _ hc.2.2⟩⟩
    · rw [if_neg hc]
      rfl

/-- A match quoting odds 1/2 on each slot: every quote is ≤ 1 (invalid per
the spec), yet each slot's best odds is positive. -/
def mkMatchHalf : MatchData :=
  { normalized_match := some nameM, match_name := nameM, sport := ['s'], league := ['l'],
    start_time := ['t'],
    outcomes := [(homeSlot, ⟨['h'], 1/2⟩), (drawSlot, ⟨['d'], 1/2⟩), (awaySlot, ⟨['a'], 1/2⟩)] }

/-- Two bookmakers both quoting 1/2 on every slot. -/
def cex5Entries : List BookmakerMatch := [⟨bmA, mkMatchHalf⟩, ⟨bmB, mkMatchHalf⟩]

/-- C5 counterexample: a match all of whose quotes have odds ≤ 1.0 (odds
1/2 everywhere) still gets a best-price set — the code's positivity
threshold is 0, not 1.0 (arbitrage.py line 112 compares against the 0
sentinel, line 122 keeps `odds > 0`), so invalid quotes are not treated as
absent and can win selection. -/
theorem C5_counterexample :
    (select_best_odds cex5Entries).isSome = true ∧
    ∀ e ∈ cex5Entries, ∀ kv ∈ e.match_data.outcomes, kv.2.odds ≤ 1 := by
  constructor
  · simp [select_best_odds, bestCellFor, updateCell, lookupOutcome, emptyCell,
      cex5Entries, mkMatchHalf, homeSlot, drawSlot, awaySlot]
  · intro e he kv hkv
    have hout : e.match_data.outcomes =
        [(homeSlot, ⟨['h'], 1/2⟩), (drawSlot, ⟨['d'], 1/2⟩), (awaySlot, ⟨['a'], 1/2⟩)] := by
      rcases List.mem_cons.1 he with rfl | he'
      · rfl
      · rcases List.mem_cons.1 he' with rfl | he''
        · rfl
        · simp at he''
    rw [hout] at hkv
    rcases List.mem_cons.1 hkv with rfl | hkv'
    · norm_num
    · rcases List.mem_cons.1 hkv' with rfl | hkv''
      · norm_num
      · rcases List.mem_cons.1 hkv'' with rfl | h
        · norm_num
        · simp at h
